import Mathlib

/-!
# checkerDT.c : the invariant checker of the directory tree

A shallow embedding of `src/2DT/checkerDT.c` (`CheckerDT_Node_isValid`,
`CheckerDT_treeCheck`, `CheckerDT_isValid`) and theorems about it.

The checker reaches the tree only through the accessors of `nodeDT.h`,
`path.h` and `a4def.h`.  None of their implementations is part of the sources,
so the node accessors, `Node_compare`, `Path_comparePath` and the constant
`SUCCESS` are fields of `Env`; theorems hold for every `Env` unless they say
otherwise.  Nodes are addresses, `Node_T` is a possibly NULL address.

* a call of a field accessor (`Node_getPath`) on a NULL child has no defined
  result: the functions return `Option`, and `none` stands for it;
* the recursion of `CheckerDT_treeCheck` is bounded by a `fuel` argument
  (recursion depth); `none` is also the answer when the fuel runs out;
* `size_t` is 64 bits wide: `Path_getDepth(..) - 1` and `(*pulCounter)++`
  are computed modulo `2 ^ 64`;
* what the C code prints on `stderr` is returned as a list of `Diag` next to
  the boolean;
* `malloc` of the counter is taken to succeed.
-/

namespace CheckerDT

/-! ## Data model -/

/-- The number of values of `size_t`. -/
def SIZE_MOD : Nat := 2 ^ 64

/-- The address of a `struct node`. -/
abbrev Addr := Nat

/-- A `Node_T` is a pointer to a node, `none` is `NULL`. -/
abbrev Node_T := Option Addr

/-- Modelled from the spec: `path.h` and `path.c` are not among the sources.
A path is the sequence of its components (spec section 3). -/
abbrev Path_T := List String

/-- Modelled from the spec: `Path_getDepth` of the absent `path.c`; the depth
of a path is the number of its components. -/
def Path_getDepth (oPPath : Path_T) : Nat := oPPath.length

/-- Modelled from the spec: `Path_getSharedPrefixDepth` of the absent
`path.c`; the number of leading components two paths have in common. -/
def Path_getSharedPrefixDepth : Path_T → Path_T → Nat
  | a :: as, b :: bs => if a = b then Path_getSharedPrefixDepth as bs + 1 else 0
  | _, _ => 0

/-- The read-only query surface of the tree (`nodeDT.h`, `path.h`, `a4def.h`),
whose implementation is not among the sources.  `Node_getChild oNParent
ulChildID` is the pair of the returned status and of the node stored in
`*poNResult`. -/
structure Env where
  /-- The status `SUCCESS` of `a4def.h`. -/
  SUCCESS : Int
  /-- The parent of a node, NULL for a node without parent. -/
  Node_getParent : Addr → Node_T
  /-- The path of a node. -/
  Node_getPath : Addr → Path_T
  /-- The number of children a node reports. -/
  Node_getNumChildren : Addr → Nat
  /-- The status and the result of fetching the child with an identifier. -/
  Node_getChild : Addr → Nat → Int × Node_T
  /-- The comparison of two nodes: negative, zero or positive.  The checker
  hands it the recorded parent of a child as it is, NULL included; what it
  answers then is left to the `Env`. -/
  Node_compare : Node_T → Node_T → Int
  /-- The comparison of two paths: negative, zero or positive. -/
  Path_comparePath : Path_T → Path_T → Int

/-- The messages the checker prints on `stderr`. -/
inductive Diag where
  /-- "A node is a NULL pointer" -/
  | nullNode
  /-- "P-C nodes don't have P-C paths: (%s) (%s)", with the parent's path and
  the node's path. -/
  | parentChildPaths (oPPPath oPNPath : Path_T)
  /-- "Conflicting parent/child relationship. " -/
  | conflictingParent
  /-- "Lexicographical children order violated. " -/
  | lexOrder
  /-- "Duplicate paths. " -/
  | duplicatePaths
  /-- "getNumChildren claims more children than getChild returns" -/
  | fewerChildren
  /-- "Not initialized, but count is not 0" -/
  | notInitCount
  /-- "Not initialized, but root is not NULL" -/
  | notInitRoot
  /-- "Root is NULL, but count is not 0" -/
  | rootNullCount
  /-- "Count is 0, but root is not NULL" -/
  | countZeroRoot
  /-- "Root's parent is not null. " -/
  | rootParent
  /-- "Wrong number of nodes in tree. " -/
  | wrongCount
  deriving DecidableEq, Repr

/-! ## CheckerDT_Node_isValid -/

/-- Subtraction of `size_t` values. -/
def sizeSub (a b : Nat) : Nat := (a + SIZE_MOD - b % SIZE_MOD) % SIZE_MOD

/-- Lines 48-57, the loop `for (ulIndex = ..; ulIndex < childArrSize;
ulIndex++)` with `k` iterations left: `false` when it returns FALSE
("Conflicting parent/child relationship"), `true` when it runs to its end. -/
def pointerCheck (env : Env) (oNNode : Addr) : Nat → Nat → Bool
  | 0, _ => true
  | k + 1, ulIndex =>
    match (env.Node_getChild oNNode ulIndex).2 with
    | some oNInspect =>
      if env.Node_compare (some oNNode) (env.Node_getParent oNInspect) ≠ 0 then false
      else pointerCheck env oNNode k (ulIndex + 1)
    | none => pointerCheck env oNNode k (ulIndex + 1)

/-- Lines 61-75, the loop `for (ulIndex = ..; ulIndex < childArrSize - 1;
ulIndex++)` with `k` iterations left: `some false` when it returns FALSE
("Lexicographical children order violated"), `some true` when it runs to its
end, `none` when `Node_getPath` is called on a NULL child. -/
def orderCheck (env : Env) (oNNode : Addr) : Nat → Nat → Option Bool
  | 0, _ => some true
  | k + 1, ulIndex =>
    match (env.Node_getChild oNNode ulIndex).2,
          (env.Node_getChild oNNode (ulIndex + 1)).2 with
    | some oNInspect1, some oNInspect2 =>
      if env.Path_comparePath (env.Node_getPath oNInspect1)
          (env.Node_getPath oNInspect2) > 0 then some false
      else orderCheck env oNNode k (ulIndex + 1)
    | _, _ => none

/-- Lines 81-95, the loop `for (ulIndex = ..; ulIndex < childArrSize - 1;
ulIndex++)` with `k` iterations left: `some false` when it returns FALSE
("Duplicate paths"), `some true` when it runs to its end, `none` when
`Node_getPath` is called on a NULL child. -/
def duplicateCheck (env : Env) (oNNode : Addr) : Nat → Nat → Option Bool
  | 0, _ => some true
  | k + 1, ulIndex =>
    match (env.Node_getChild oNNode ulIndex).2,
          (env.Node_getChild oNNode (ulIndex + 1)).2 with
    | some oNInspect1, some oNInspect2 =>
      if env.Path_comparePath (env.Node_getPath oNInspect1)
          (env.Node_getPath oNInspect2) = 0 then some false
      else duplicateCheck env oNNode k (ulIndex + 1)
    | _, _ => none

/-- Lines 32-42: the test of the parent's path, `true` when the function
returns FALSE there. -/
def parentPathBad (env : Env) (oNNode : Addr) : Bool :=
  match env.Node_getParent oNNode with
  | some oNParent =>
    decide (Path_getSharedPrefixDepth (env.Node_getPath oNNode) (env.Node_getPath oNParent)
      ≠ sizeSub (Path_getDepth (env.Node_getPath oNNode)) 1)
  | none => false

/-- The path of the parent, for the message of lines 38-39. -/
def parentPath (env : Env) (oNNode : Addr) : Path_T :=
  match env.Node_getParent oNNode with
  | some oNParent => env.Node_getPath oNParent
  | none => []

/-- `CheckerDT_Node_isValid` (lines 16-99): the returned boolean and what was
printed; `none` when a NULL child is dereferenced. -/
def CheckerDT_Node_isValid (env : Env) (oNNode : Node_T) : Option (Bool × List Diag) :=
  match oNNode with
  | none => some (false, [Diag.nullNode])
  | some n =>
    if parentPathBad env n then
      some (false, [Diag.parentChildPaths (parentPath env n) (env.Node_getPath n)])
    else
      let childArrSize := env.Node_getNumChildren n
      if pointerCheck env n childArrSize 0 = false then
        some (false, [Diag.conflictingParent])
      else
        match (if childArrSize > 1 then orderCheck env n (childArrSize - 1) 0 else some true) with
        | none => none
        | some false => some (false, [Diag.lexOrder])
        | some true =>
          match (if childArrSize > 1 then duplicateCheck env n (childArrSize - 1) 0
                 else some true) with
          | none => none
          | some false => some (false, [Diag.duplicatePaths])
          | some true => some (true, [])

/-! ## CheckerDT_treeCheck -/

/-- Lines 128-144, the loop over the children of `oNNode` with `k` iterations
left; `recur` is the recursive call of `CheckerDT_treeCheck`.  The state is
the counter `*pulCounter`; the result carries the returned boolean (`true`
when the loop runs to its end), the counter and what was printed. -/
def treeCheckLoop (env : Env) (recur : Node_T → Nat → Option (Bool × Nat × List Diag))
    (oNNode : Addr) : Nat → Nat → Nat → Option (Bool × Nat × List Diag)
  | 0, _, ulCounter => some (true, ulCounter, [])
  | k + 1, ulIndex, ulCounter =>
    if (env.Node_getChild oNNode ulIndex).1 ≠ env.SUCCESS then
      some (false, ulCounter, [Diag.fewerChildren])
    else
      match recur (env.Node_getChild oNNode ulIndex).2 ulCounter with
      | none => none
      | some (false, c, err) => some (false, c, err)
      | some (true, c, err) =>
        match treeCheckLoop env recur oNNode k (ulIndex + 1) c with
        | none => none
        | some (b, c1, err1) => some (b, c1, err ++ err1)

/-- `CheckerDT_treeCheck` (lines 113-147) with recursion depth at most `fuel`:
the returned boolean, the final value of `*pulCounter` and what was printed. -/
def CheckerDT_treeCheck (env : Env) : Nat → Node_T → Nat → Option (Bool × Nat × List Diag)
  | _, none, ulCounter => some (true, ulCounter, [])
  | 0, some _, _ => none
  | fuel + 1, some n, ulCounter =>
    match CheckerDT_Node_isValid env (some n) with
    | none => none
    | some (false, err) => some (false, (ulCounter + 1) % SIZE_MOD, err)
    | some (true, err) =>
      match treeCheckLoop env (CheckerDT_treeCheck env fuel) n (env.Node_getNumChildren n) 0
              ((ulCounter + 1) % SIZE_MOD) with
      | none => none
      | some (b, c, err1) => some (b, c, err ++ err1)

/-! ## CheckerDT_isValid -/

/-- Lines 191-200: the traversal from the root with a counter starting at 0,
then the comparison of the counter with `ulCount`. -/
def isValidTraverse (env : Env) (fuel : Nat) (oNRoot : Node_T) (ulCount : Nat) :
    Option (Bool × List Diag) :=
  match CheckerDT_treeCheck env fuel oNRoot 0 with
  | none => none
  | some (result, ulCounter, err) =>
    if ulCounter ≠ ulCount then some (false, err ++ [Diag.wrongCount])
    else some (result, err)

/-- The parent of the root, for the test of line 185. -/
def rootParent (env : Env) (oNRoot : Node_T) : Node_T :=
  match oNRoot with
  | some r => env.Node_getParent r
  | none => none

/-- `CheckerDT_isValid` (lines 150-201): the returned boolean and what was
printed. -/
def CheckerDT_isValid (env : Env) (fuel : Nat) (bIsInitialized : Bool) (oNRoot : Node_T)
    (ulCount : Nat) : Option (Bool × List Diag) :=
  if bIsInitialized = false then
    if ulCount ≠ 0 then some (false, [Diag.notInitCount])
    else if oNRoot ≠ none then some (false, [Diag.notInitRoot])
    else isValidTraverse env fuel oNRoot ulCount
  else
    if oNRoot = none ∧ ulCount ≠ 0 then some (false, [Diag.rootNullCount])
    else if ulCount = 0 ∧ oNRoot ≠ none then some (false, [Diag.countZeroRoot])
    else if oNRoot ≠ none ∧ rootParent env oNRoot ≠ none then some (false, [Diag.rootParent])
    else isValidTraverse env fuel oNRoot ulCount

/-! ## Nodes reachable from the root -/

/-- The child of `n` with identifier `i`: the node `Node_getChild` stores when
it returns `SUCCESS`, NULL otherwise. -/
def childAt (env : Env) (n : Addr) (i : Nat) : Node_T :=
  if (env.Node_getChild n i).1 = env.SUCCESS then (env.Node_getChild n i).2 else none

/-- The nodes below the children `i, .., i + k - 1` of `n`, child after child;
`recur` lists the nodes below one child. -/
def reachableLoop (env : Env) (recur : Node_T → Option (List Addr)) (n : Addr) :
    Nat → Nat → Option (List Addr)
  | 0, _ => some []
  | k + 1, i =>
    match recur (childAt env n i), reachableLoop env recur n k (i + 1) with
    | some l, some r => some (l ++ r)
    | _, _ => none

/-- The nodes reachable from a root by child traversal, in pre-order, each
listed once per way of reaching it; `none` when the descent is deeper than
`fuel`. -/
def reachable (env : Env) : Nat → Node_T → Option (List Addr)
  | _, none => some []
  | 0, some _ => none
  | fuel + 1, some n =>
    match reachableLoop env (reachable env fuel) n (env.Node_getNumChildren n) 0 with
    | some l => some (n :: l)
    | none => none

/-- The single-node check accepts `m` and prints nothing. -/
def NodeOk (env : Env) (m : Addr) : Prop :=
  CheckerDT_Node_isValid env (some m) = some (true, [])

/-- Every `Node_getChild` on an identifier below `Node_getNumChildren`
returns `SUCCESS`. -/
def StatusOk (env : Env) (m : Addr) : Prop :=
  ∀ i, i < env.Node_getNumChildren m → (env.Node_getChild m i).1 = env.SUCCESS

/-- Every `Node_getChild` on an identifier below `Node_getNumChildren`
returns `SUCCESS` and a node. -/
def EnumOk (env : Env) (m : Addr) : Prop :=
  ∀ i, i < env.Node_getNumChildren m →
    (env.Node_getChild m i).1 = env.SUCCESS ∧ (env.Node_getChild m i).2 ≠ none

instance (env : Env) (m : Addr) : Decidable (NodeOk env m) := by
  unfold NodeOk; exact inferInstance

instance (env : Env) (m : Addr) : Decidable (StatusOk env m) := by
  unfold StatusOk; exact inferInstance

instance (env : Env) (m : Addr) : Decidable (EnumOk env m) := by
  unfold EnumOk; exact inferInstance

/-- Modelled from the spec: the contract of `Node_compare`, whose code is
not among the sources.  The spec reads the test `Node_compare(N, C.parent)
!= 0` of the checker as `C.parent != N` (invariant 2, P2): on two nodes the
comparison is 0 when they are one and the same node, and then only.  Nothing
is assumed on a NULL argument. -/
def NodeCompareSpec (env : Env) : Prop :=
  ∀ a b : Addr, env.Node_compare (some a) (some b) = 0 ↔ a = b

/-- Modelled from the spec: the contract of `Node_compare` on the recorded
parent of a child, NULL included (spec invariant 2, `C.parent == N`): the
comparison of a node with a recorded parent is 0 only when the recorded parent
is that node. -/
def BackRefContract (env : Env) : Prop :=
  ∀ (n : Addr) (q : Node_T), env.Node_compare (some n) q = 0 → q = some n

/-- The `k`-th recorded ancestor of a node: the node for 0, its recorded
parent for 1, NULL above a node without parent. -/
def ancestor (env : Env) : Nat → Addr → Node_T
  | 0, m => some m
  | k + 1, m =>
    match env.Node_getParent m with
    | some p => ancestor env k p
    | none => none

/-- `Path_comparePath` orders the paths strictly: it is 0 on a path and
itself, and "negative" is transitive (both follow when it is a strict total
order that is 0 exactly on equal paths). -/
def StrictPathOrder (env : Env) : Prop :=
  (∀ a, env.Path_comparePath a a = 0) ∧
  ∀ a b c, env.Path_comparePath a b < 0 → env.Path_comparePath b c < 0 →
    env.Path_comparePath a c < 0

/-- The test of the parent's path fails at `n` (lines 32-42). -/
def ParentPathFails (env : Env) (n : Addr) : Prop :=
  ∃ p ∈ env.Node_getParent n,
    Path_getSharedPrefixDepth (env.Node_getPath n) (env.Node_getPath p)
      ≠ sizeSub (Path_getDepth (env.Node_getPath n)) 1

/-- Some child of `n` does not compare equal, by `Node_compare`, to `n` on
its recorded parent (lines 48-57). -/
def BackRefFails (env : Env) (n : Addr) : Prop :=
  ∃ i < env.Node_getNumChildren n, ∃ c ∈ (env.Node_getChild n i).2,
    env.Node_compare (some n) (env.Node_getParent c) ≠ 0

/-- Some adjacent pair of children of `n` is out of order (lines 61-75). -/
def OrderFails (env : Env) (n : Addr) : Prop :=
  ∃ i < env.Node_getNumChildren n - 1, ∃ c1 ∈ (env.Node_getChild n i).2,
    ∃ c2 ∈ (env.Node_getChild n (i + 1)).2,
      env.Path_comparePath (env.Node_getPath c1) (env.Node_getPath c2) > 0

/-- Some adjacent pair of children of `n` has equal paths (lines 81-95). -/
def DuplicateFails (env : Env) (n : Addr) : Prop :=
  ∃ i < env.Node_getNumChildren n - 1, ∃ c1 ∈ (env.Node_getChild n i).2,
    ∃ c2 ∈ (env.Node_getChild n (i + 1)).2,
      env.Path_comparePath (env.Node_getPath c1) (env.Node_getPath c2) = 0

/-- No child of `n` is NULL. -/
def ChildrenNonNull (env : Env) (n : Addr) : Prop :=
  ∀ i < env.Node_getNumChildren n, (env.Node_getChild n i).2 ≠ none

instance (env : Env) (n : Addr) : Decidable (ParentPathFails env n) := by
  unfold ParentPathFails; exact inferInstance

instance (env : Env) (n : Addr) : Decidable (BackRefFails env n) := by
  unfold BackRefFails; exact inferInstance

instance (env : Env) (n : Addr) : Decidable (OrderFails env n) := by
  unfold OrderFails; exact inferInstance

instance (env : Env) (n : Addr) : Decidable (DuplicateFails env n) := by
  unfold DuplicateFails; exact inferInstance

instance (env : Env) (n : Addr) : Decidable (ChildrenNonNull env n) := by
  unfold ChildrenNonNull; exact inferInstance

/-- The tree-level tests of lines 160-189 let the run through to the
traversal: an uninitialized tree has count 0 and a NULL root; in an
initialized tree "count is 0" and "root is NULL" agree and the root has no
parent. -/
def BookkeepingOk (env : Env) (bIsInitialized : Bool) (oNRoot : Node_T) (ulCount : Nat) :
    Prop :=
  (bIsInitialized = false → ulCount = 0 ∧ oNRoot = none) ∧
  (bIsInitialized = true →
    (ulCount = 0 ↔ oNRoot = none) ∧ ∀ r ∈ oNRoot, env.Node_getParent r = none)

instance (env : Env) (b : Bool) (oNRoot : Node_T) (ulCount : Nat) :
    Decidable (BookkeepingOk env b oNRoot ulCount) := by
  unfold BookkeepingOk; exact inferInstance

/-- The children with identifier `i` of the node `n1` of `env1` and of the
node `n2` of `env2` match: both are NULL, or both are nodes of the same path
whose recorded parent is the node that lists them (`n1` for the one, `n2` for
the other) in both cases or in neither. -/
def ChildMatch (env1 env2 : Env) (n1 n2 : Addr) (i : Nat) : Prop :=
  match (env1.Node_getChild n1 i).2, (env2.Node_getChild n2 i).2 with
  | some c1, some c2 =>
    env1.Node_getPath c1 = env2.Node_getPath c2 ∧
    (env1.Node_getParent c1 = some n1 ↔ env2.Node_getParent c2 = some n2)
  | none, none => True
  | _, _ => False

instance (env1 env2 : Env) (n1 n2 : Addr) (i : Nat) :
    Decidable (ChildMatch env1 env2 n1 n2 i) := by
  unfold ChildMatch
  split <;> exact inferInstance

/-- The boolean a run returns, when it returns. -/
def returned (r : Option (Bool × List Diag)) : Option Bool := r.map Prod.fst

/-- What a run prints, when it returns. -/
def printed (r : Option (Bool × List Diag)) : Option (List Diag) := r.map Prod.snd

/-! ## Concrete trees -/

/-- A node of a concrete tree: its path, its parent and its children. -/
structure NodeRec where
  /-- The path of the node. -/
  oPPath : Path_T
  /-- The recorded parent. -/
  oNParent : Node_T
  /-- The children, by identifier. -/
  oDChildren : List Addr

/-- The character codes of the pathname of a path, "/" before each
component. -/
def pathCodes (oPPath : Path_T) : List Nat :=
  oPPath.flatMap (fun s => 47 :: s.toList.map Char.toNat)

/-- A comparison of paths by their pathnames, character by character. -/
def comparePathnames (a b : Path_T) : Int :=
  if pathCodes a < pathCodes b then -1 else if pathCodes b < pathCodes a then 1 else 0

/-- The accessors over a table of nodes: `Node_getChild` returns `SUCCESS`
(0) and the child for an identifier below the number of children, the status
1 and NULL otherwise; `Node_compare` is 0 on the same node only. -/
def tableEnv (tbl : Addr → NodeRec) : Env where
  SUCCESS := 0
  Node_getParent n := (tbl n).oNParent
  Node_getPath n := (tbl n).oPPath
  Node_getNumChildren n := (tbl n).oDChildren.length
  Node_getChild n i :=
    match (tbl n).oDChildren[i]? with
    | some c => (0, some c)
    | none => (1, none)
  Node_compare a b := if a = b then 0 else 1
  Path_comparePath := comparePathnames

/-- The tree "/a" with the children "/a/b" and "/a/c" (nodes 1, 2, 3). -/
def treeABC : Addr → NodeRec
  | 1 => ⟨["a"], none, [2, 3]⟩
  | 2 => ⟨["a", "b"], some 1, []⟩
  | 3 => ⟨["a", "c"], some 1, []⟩
  | _ => ⟨[], none, []⟩

/-- The tree "/a" whose children are stored out of order: "/a/c" before
"/a/b" (nodes 1, 3, 2). -/
def treeACB : Addr → NodeRec
  | 1 => ⟨["a"], none, [3, 2]⟩
  | 2 => ⟨["a", "b"], some 1, []⟩
  | 3 => ⟨["a", "c"], some 1, []⟩
  | _ => ⟨[], none, []⟩

/-- The tree "/a" with the child "/a/b" (nodes 1, 2), whose recorded parent
is another node, 7, of path "/a" as well. -/
def treeWrongParent : Addr → NodeRec
  | 1 => ⟨["a"], none, [2]⟩
  | 2 => ⟨["a", "b"], some 7, []⟩
  | 7 => ⟨["a"], none, []⟩
  | _ => ⟨[], none, []⟩

/-- The node "/a/b" (2) under a parent (1) of path "/a/c/d". -/
def treeDeepParent : Addr → NodeRec
  | 1 => ⟨["a", "c", "d"], none, [2]⟩
  | 2 => ⟨["a", "b"], some 1, []⟩
  | _ => ⟨[], none, []⟩

/-- The chain of the root "/a/b" (1), its child "/a/c" (2) and the child
"/a/b" (3) of that one. -/
def treeSamePath : Addr → NodeRec
  | 1 => ⟨["a", "b"], none, [2]⟩
  | 2 => ⟨["a", "c"], some 1, [3]⟩
  | 3 => ⟨["a", "b"], some 2, []⟩
  | _ => ⟨[], none, []⟩

/-- The tree "/a" whose children are stored out of order, "/a/c" (3) before
"/a/b" (2), and whose child "/a/b" records another node, 7, as parent. -/
def treeTwoDefects : Addr → NodeRec
  | 1 => ⟨["a"], none, [3, 2]⟩
  | 2 => ⟨["a", "b"], some 7, []⟩
  | 3 => ⟨["a", "c"], some 1, []⟩
  | 7 => ⟨["a"], none, []⟩
  | _ => ⟨[], none, []⟩

/-- The tree "/a" with the children "/a/b" (2), "/a/b" (3), "/a/d" (4) and
"/a/c" (5) in this order: an equal pair first, a pair out of order last. -/
def treeDupThenOrder : Addr → NodeRec
  | 1 => ⟨["a"], none, [2, 3, 4, 5]⟩
  | 2 => ⟨["a", "b"], some 1, []⟩
  | 3 => ⟨["a", "b"], some 1, []⟩
  | 4 => ⟨["a", "d"], some 1, []⟩
  | 5 => ⟨["a", "c"], some 1, []⟩
  | _ => ⟨[], none, []⟩

/-- The tree "/a" with the children "/a/b" (2), "/a/c/x" (3) and "/a/d" (4):
the path of node 3 is two components deeper than that of its parent. -/
def treeLateFail : Addr → NodeRec
  | 1 => ⟨["a"], none, [2, 3, 4]⟩
  | 2 => ⟨["a", "b"], some 1, []⟩
  | 3 => ⟨["a", "c", "x"], some 1, []⟩
  | 4 => ⟨["a", "d"], some 1, []⟩
  | _ => ⟨[], none, []⟩

/-- The tree "/a" with the children "/a/b" (2) and "/a/c/x" (3); the table
holds no child for node 2. -/
def treeShort : Addr → NodeRec
  | 1 => ⟨["a"], none, [2, 3]⟩
  | 2 => ⟨["a", "b"], some 1, []⟩
  | 3 => ⟨["a", "c", "x"], some 1, []⟩
  | _ => ⟨[], none, []⟩

/-- The accessors over `treeShort`, except that `Node_getNumChildren` reports
one child for node 2: `Node_getChild` on its identifier 0 returns the status
1 and NULL. -/
def envShortChild : Env :=
  { tableEnv treeShort with
    Node_getNumChildren := fun n => if n = 2 then 1 else (treeShort n).oDChildren.length }

/-- The node "/a" (1) with a child (2) whose path is empty. -/
def treeDepthZero : Addr → NodeRec
  | 1 => ⟨["a"], none, [2]⟩
  | 2 => ⟨[], some 1, []⟩
  | _ => ⟨[], none, []⟩

/-- The tree `treeABC` with descendants below "/a/b": a child (4) out of
place, with a grandchild (5). -/
def treeABCDeep : Addr → NodeRec
  | 1 => ⟨["a"], none, [2, 3]⟩
  | 2 => ⟨["a", "b"], some 1, [4]⟩
  | 3 => ⟨["a", "c"], some 1, []⟩
  | 4 => ⟨["z"], some 9, [5]⟩
  | 5 => ⟨[], none, []⟩
  | _ => ⟨[], none, []⟩

/-- Two nodes "/a" without parent, 1 and 7, that list the same single child
"/a/b" (2), whose recorded parent is node 1. -/
def treeTwin : Addr → NodeRec
  | 1 => ⟨["a"], none, [2]⟩
  | 2 => ⟨["a", "b"], some 1, []⟩
  | 7 => ⟨["a"], none, [2]⟩
  | _ => ⟨[], none, []⟩

/-- Two trees side by side: "/a" (1) with the child "/a/b" (2), which has a
child out of place (5); and "/a" (7) with the child "/a/b" (8), a leaf.  Each
child records the node that lists it. -/
def treeSideBySide : Addr → NodeRec
  | 1 => ⟨["a"], none, [2]⟩
  | 2 => ⟨["a", "b"], some 1, [5]⟩
  | 5 => ⟨["z"], none, []⟩
  | 7 => ⟨["a"], none, [8]⟩
  | 8 => ⟨["a", "b"], some 7, []⟩
  | _ => ⟨[], none, []⟩

/-! ## Lemmas on the traversal -/

theorem SIZE_MOD_pos : 0 < SIZE_MOD := by decide

theorem Node_isValid_true_err {env : Env} {x : Node_T} {e : List Diag}
    (h : CheckerDT_Node_isValid env x = some (true, e)) : e = [] := by
  unfold CheckerDT_Node_isValid at h
  cases x with
  | none => simp at h
  | some n =>
    simp only at h
    split at h
    · simp at h
    · split at h
      · simp at h
      · split at h
        · simp at h
        · simp at h
        · split at h
          · simp at h
          · simp at h
          · simp at h
            exact h

theorem reachableLoop_mono {env : Env} {r r' : Node_T → Option (List Addr)}
    (h : ∀ x l, r x = some l → r' x = some l) (n : Addr) :
    ∀ k i l, reachableLoop env r n k i = some l → reachableLoop env r' n k i = some l := by
  intro k
  induction k with
  | zero => intro i l hl; simpa [reachableLoop] using hl
  | succ k ih =>
    intro i l hl
    simp only [reachableLoop] at hl ⊢
    cases h1 : r (childAt env n i) with
    | none => simp [h1] at hl
    | some a =>
      cases h2 : reachableLoop env r n k (i + 1) with
      | none => simp [h1, h2] at hl
      | some b =>
        simp [h1, h2] at hl
        simp [h _ _ h1, ih _ _ h2, hl]

theorem reachable_succ (env : Env) :
    ∀ fuel x l, reachable env fuel x = some l → reachable env (fuel + 1) x = some l := by
  intro fuel
  induction fuel with
  | zero =>
    intro x l h
    cases x with
    | none => simpa [reachable] using h
    | some n => simp [reachable] at h
  | succ f ih =>
    intro x l h
    cases x with
    | none => simpa [reachable] using h
    | some n =>
      simp only [reachable] at h ⊢
      cases h1 : reachableLoop env (reachable env f) n (env.Node_getNumChildren n) 0 with
      | none => simp [h1] at h
      | some a =>
        simp [h1] at h
        simp [reachableLoop_mono ih n _ _ _ h1, h]

theorem reachable_mono (env : Env) {fuel fuel' : Nat} (hle : fuel ≤ fuel') {x : Node_T}
    {l : List Addr} (h : reachable env fuel x = some l) : reachable env fuel' x = some l := by
  induction hle with
  | refl => exact h
  | step _ ih => exact reachable_succ env _ _ _ ih

theorem childAt_of_status {env : Env} {n : Addr} {i : Nat}
    (h : (env.Node_getChild n i).1 = env.SUCCESS) :
    childAt env n i = (env.Node_getChild n i).2 := by
  simp [childAt, h]

theorem counter_step (c k : Nat) :
    ((c + 1) % SIZE_MOD + k) % SIZE_MOD = (c + (k + 1)) % SIZE_MOD := by
  rw [Nat.add_mod, Nat.mod_mod, ← Nat.add_mod]
  congr 1
  omega

theorem counter_chain (c a b : Nat) :
    ((c + a) % SIZE_MOD + b) % SIZE_MOD = (c + (a + b)) % SIZE_MOD := by
  rw [Nat.add_mod, Nat.mod_mod, ← Nat.add_mod]
  congr 1
  omega

/-- A loop over children that returns TRUE went through every child, and the
counter advanced by the number of nodes below them. -/
theorem treeCheckLoop_sound {env : Env}
    {recur : Node_T → Nat → Option (Bool × Nat × List Diag)}
    {rrec : Node_T → Option (List Addr)} {P : Addr → Prop}
    (hrec : ∀ x c c' e, recur x c = some (true, c', e) → c < SIZE_MOD →
      ∃ l, rrec x = some l ∧ c' = (c + l.length) % SIZE_MOD ∧ e = [] ∧ ∀ m ∈ l, P m)
    (n : Addr) :
    ∀ k i c c' e, treeCheckLoop env recur n k i c = some (true, c', e) → c < SIZE_MOD →
      ∃ l, reachableLoop env rrec n k i = some l ∧ c' = (c + l.length) % SIZE_MOD ∧ e = [] ∧
        (∀ m ∈ l, P m) ∧
        ∀ j, i ≤ j → j < i + k → (env.Node_getChild n j).1 = env.SUCCESS := by
  intro k
  induction k with
  | zero =>
    intro i c c' e h hc
    simp only [treeCheckLoop, Option.some.injEq, Prod.mk.injEq, true_and] at h
    refine ⟨[], by simp [reachableLoop], ?_, h.2.symm, by simp, ?_⟩
    · simp [← h.1, Nat.mod_eq_of_lt hc]
    · intro j h1 h2; omega
  | succ k ih =>
    intro i c c' e h hc
    simp only [treeCheckLoop] at h
    by_cases hs : (env.Node_getChild n i).1 = env.SUCCESS
    · simp only [hs, ne_eq, not_true_eq_false, if_false] at h
      cases h1 : recur (env.Node_getChild n i).2 c with
      | none => simp [h1] at h
      | some r1 =>
        obtain ⟨b1, c1, e1⟩ := r1
        cases b1 with
        | false => simp [h1] at h
        | true =>
          simp only [h1] at h
          obtain ⟨l1, hl1, hc1, he1, hP1⟩ := hrec _ _ _ _ h1 hc
          have hc1lt : c1 < SIZE_MOD := by rw [hc1]; exact Nat.mod_lt _ SIZE_MOD_pos
          cases h2 : treeCheckLoop env recur n k (i + 1) c1 with
          | none => simp [h2] at h
          | some r2 =>
            obtain ⟨b2, c2, e2⟩ := r2
            simp only [h2, Option.some.injEq, Prod.mk.injEq] at h
            obtain ⟨hb, hc2, he⟩ := h
            subst hb
            obtain ⟨l2, hl2, hc2', he2, hP2, hst⟩ := ih _ _ _ _ h2 hc1lt
            refine ⟨l1 ++ l2, ?_, ?_, ?_, ?_, ?_⟩
            · simp [reachableLoop, childAt_of_status hs, hl1, hl2]
            · rw [← hc2, hc2', hc1, List.length_append, counter_chain]
            · rw [← he, he1, he2]; rfl
            · intro m hm
              rcases List.mem_append.1 hm with hm | hm
              · exact hP1 m hm
              · exact hP2 m hm
            · intro j h1j h2j
              by_cases hj : j = i
              · subst hj; exact hs
              · exact hst j (by omega) (by omega)
    · simp [hs] at h

/-- A traversal that returns TRUE visited every reachable node once per way
of reaching it, found each of them valid and every enumeration successful. -/
theorem treeCheck_sound (env : Env) :
    ∀ fuel x c c' e, CheckerDT_treeCheck env fuel x c = some (true, c', e) → c < SIZE_MOD →
      ∃ l, reachable env fuel x = some l ∧ c' = (c + l.length) % SIZE_MOD ∧ e = [] ∧
        ∀ m ∈ l, NodeOk env m ∧ StatusOk env m := by
  intro fuel
  induction fuel with
  | zero =>
    intro x c c' e h hc
    cases x with
    | none =>
      simp only [CheckerDT_treeCheck, Option.some.injEq, Prod.mk.injEq, true_and] at h
      exact ⟨[], by simp [reachable], by simp [← h.1, Nat.mod_eq_of_lt hc], h.2.symm, by simp⟩
    | some n => simp [CheckerDT_treeCheck] at h
  | succ f ih =>
    intro x c c' e h hc
    cases x with
    | none =>
      simp only [CheckerDT_treeCheck, Option.some.injEq, Prod.mk.injEq, true_and] at h
      exact ⟨[], by simp [reachable], by simp [← h.1, Nat.mod_eq_of_lt hc], h.2.symm, by simp⟩
    | some n =>
      simp only [CheckerDT_treeCheck] at h
      cases h1 : CheckerDT_Node_isValid env (some n) with
      | none => simp [h1] at h
      | some r1 =>
        obtain ⟨b1, e1⟩ := r1
        cases b1 with
        | false => simp [h1] at h
        | true =>
          have he1 : e1 = [] := Node_isValid_true_err h1
          subst he1
          simp only [h1] at h
          cases h2 : treeCheckLoop env (CheckerDT_treeCheck env f) n
              (env.Node_getNumChildren n) 0 ((c + 1) % SIZE_MOD) with
          | none => simp [h2] at h
          | some r2 =>
            obtain ⟨b2, c2, e2⟩ := r2
            simp only [h2, Option.some.injEq, Prod.mk.injEq, List.nil_append] at h
            obtain ⟨hb, hc2, he⟩ := h
            subst hb
            obtain ⟨l2, hl2, hc2', he2, hP2, hst⟩ :=
              treeCheckLoop_sound ih n _ _ _ _ _ h2 (Nat.mod_lt _ SIZE_MOD_pos)
            refine ⟨n :: l2, by simp [reachable, hl2], ?_, by rw [← he, he2], ?_⟩
            · rw [← hc2, hc2', List.length_cons, counter_step]
            · intro m hm
              rcases List.mem_cons.1 hm with hm | hm
              · subst hm
                exact ⟨h1, fun j hj => hst j (Nat.zero_le _) (by omega)⟩
              · exact hP2 m hm

/-- When every node below the children is accepted and every enumeration
succeeds, the loop runs to its end. -/
theorem treeCheckLoop_complete {env : Env}
    {recur : Node_T → Nat → Option (Bool × Nat × List Diag)}
    {rrec : Node_T → Option (List Addr)} {P : Addr → Prop}
    (hrec : ∀ x l c, rrec x = some l → (∀ m ∈ l, P m) → c < SIZE_MOD →
      recur x c = some (true, (c + l.length) % SIZE_MOD, []))
    (n : Addr) :
    ∀ k i l c, reachableLoop env rrec n k i = some l → (∀ m ∈ l, P m) →
      (∀ j, i ≤ j → j < i + k → (env.Node_getChild n j).1 = env.SUCCESS) → c < SIZE_MOD →
      treeCheckLoop env recur n k i c = some (true, (c + l.length) % SIZE_MOD, []) := by
  intro k
  induction k with
  | zero =>
    intro i l c hl _ _ hc
    simp only [reachableLoop, Option.some.injEq] at hl
    subst hl
    simp [treeCheckLoop, Nat.mod_eq_of_lt hc]
  | succ k ih =>
    intro i l c hl hP hst hc
    have hs : (env.Node_getChild n i).1 = env.SUCCESS := hst i (Nat.le_refl _) (by omega)
    simp only [reachableLoop, childAt_of_status hs] at hl
    cases h1 : rrec (env.Node_getChild n i).2 with
    | none => simp [h1] at hl
    | some l1 =>
      cases h2 : reachableLoop env rrec n k (i + 1) with
      | none => simp [h1, h2] at hl
      | some l2 =>
        simp only [h1, h2, Option.some.injEq] at hl
        subst hl
        have hP1 : ∀ m ∈ l1, P m := fun m hm => hP m (List.mem_append.2 (Or.inl hm))
        have hP2 : ∀ m ∈ l2, P m := fun m hm => hP m (List.mem_append.2 (Or.inr hm))
        have e1 := hrec _ _ c h1 hP1 hc
        have e2 := ih (i + 1) l2 ((c + l1.length) % SIZE_MOD) h2 hP2
          (fun j h1j h2j => hst j (by omega) (by omega)) (Nat.mod_lt _ SIZE_MOD_pos)
        simp [treeCheckLoop, hs, e1, e2, counter_chain, Nat.add_assoc]

/-- On a tree whose nodes are all accepted and whose enumerations all succeed
the traversal returns TRUE, prints nothing and advances the counter by the
number of nodes. -/
theorem treeCheck_complete (env : Env) :
    ∀ fuel x l c, reachable env fuel x = some l →
      (∀ m ∈ l, NodeOk env m ∧ StatusOk env m) → c < SIZE_MOD →
      CheckerDT_treeCheck env fuel x c = some (true, (c + l.length) % SIZE_MOD, []) := by
  intro fuel
  induction fuel with
  | zero =>
    intro x l c hl _ hc
    cases x with
    | none =>
      simp only [reachable, Option.some.injEq] at hl
      subst hl
      simp [CheckerDT_treeCheck, Nat.mod_eq_of_lt hc]
    | some n => simp [reachable] at hl
  | succ f ih =>
    intro x l c hl hP hc
    cases x with
    | none =>
      simp only [reachable, Option.some.injEq] at hl
      subst hl
      simp [CheckerDT_treeCheck, Nat.mod_eq_of_lt hc]
    | some n =>
      simp only [reachable] at hl
      cases h1 : reachableLoop env (reachable env f) n (env.Node_getNumChildren n) 0 with
      | none => simp [h1] at hl
      | some l1 =>
        simp only [h1, Option.some.injEq] at hl
        subst hl
        have hn := hP n (List.mem_cons_self _ _)
        have hok : CheckerDT_Node_isValid env (some n) = some (true, []) := hn.1
        have e1 := treeCheckLoop_complete ih n _ 0 l1 ((c + 1) % SIZE_MOD) h1
          (fun m hm => hP m (List.mem_cons_of_mem _ hm))
          (fun j _ h2j => hn.2 j (by omega)) (Nat.mod_lt _ SIZE_MOD_pos)
        simp [CheckerDT_treeCheck, hok, e1, counter_step, Nat.add_assoc, Nat.add_comm 1]

/-- The loop over children returns whenever the single-node check is defined
on every node below them. -/
theorem treeCheckLoop_total {env : Env}
    {recur : Node_T → Nat → Option (Bool × Nat × List Diag)}
    {rrec : Node_T → Option (List Addr)} {P : Addr → Prop}
    (hrec : ∀ x l c, rrec x = some l → (∀ m ∈ l, P m) → (recur x c).isSome)
    (n : Addr) :
    ∀ k i l c, reachableLoop env rrec n k i = some l → (∀ m ∈ l, P m) →
      (treeCheckLoop env recur n k i c).isSome := by
  intro k
  induction k with
  | zero => intro i l c _ _; simp [treeCheckLoop]
  | succ k ih =>
    intro i l c hl hP
    simp only [treeCheckLoop]
    by_cases hs : (env.Node_getChild n i).1 = env.SUCCESS
    · simp only [reachableLoop, childAt_of_status hs] at hl
      cases h1 : rrec (env.Node_getChild n i).2 with
      | none => simp [h1] at hl
      | some l1 =>
        cases h2 : reachableLoop env rrec n k (i + 1) with
        | none => simp [h1, h2] at hl
        | some l2 =>
          simp only [h1, h2, Option.some.injEq] at hl
          subst hl
          have hP1 : ∀ m ∈ l1, P m := fun m hm => hP m (List.mem_append.2 (Or.inl hm))
          have hP2 : ∀ m ∈ l2, P m := fun m hm => hP m (List.mem_append.2 (Or.inr hm))
          have e1 := hrec _ _ c h1 hP1
          simp only [hs, ne_eq, not_true_eq_false, if_false]
          cases h3 : recur (env.Node_getChild n i).2 c with
          | none => simp [h3] at e1
          | some r1 =>
            obtain ⟨b1, c1, err1⟩ := r1
            cases b1 with
            | false => simp
            | true =>
              have e2 := ih (i + 1) l2 c1 h2 hP2
              cases h4 : treeCheckLoop env recur n k (i + 1) c1 with
              | none => simp [h4] at e2
              | some r2 => simp [h4]
    · simp [hs]

/-- The traversal returns (with enough fuel to list the reachable nodes)
whenever the single-node check is defined on every reachable node. -/
theorem treeCheck_total (env : Env) :
    ∀ fuel x l c, reachable env fuel x = some l →
      (∀ m ∈ l, (CheckerDT_Node_isValid env (some m)).isSome) →
      (CheckerDT_treeCheck env fuel x c).isSome := by
  intro fuel
  induction fuel with
  | zero =>
    intro x l c hl _
    cases x with
    | none => simp [CheckerDT_treeCheck]
    | some n => simp [reachable] at hl
  | succ f ih =>
    intro x l c hl hP
    cases x with
    | none => simp [CheckerDT_treeCheck]
    | some n =>
      simp only [reachable] at hl
      cases h1 : reachableLoop env (reachable env f) n (env.Node_getNumChildren n) 0 with
      | none => simp [h1] at hl
      | some l1 =>
        simp only [h1, Option.some.injEq] at hl
        subst hl
        have hn := hP n (List.mem_cons_self _ _)
        have e1 := treeCheckLoop_total ih n _ 0 l1 ((c + 1) % SIZE_MOD) h1
          (fun m hm => hP m (List.mem_cons_of_mem _ hm))
        simp only [CheckerDT_treeCheck]
        cases h2 : CheckerDT_Node_isValid env (some n) with
        | none => simp [h2] at hn
        | some r =>
          obtain ⟨b, err⟩ := r
          cases b with
          | false => simp
          | true =>
            cases h3 : treeCheckLoop env (CheckerDT_treeCheck env f) n
                (env.Node_getNumChildren n) 0 ((c + 1) % SIZE_MOD) with
            | none => simp [h3] at e1
            | some r2 => simp [h3]

/-! ## Tree-level bookkeeping -/

theorem isValidTraverse_none (env : Env) (fuel ulCount : Nat) :
    isValidTraverse env fuel none ulCount =
      if 0 ≠ ulCount then some (false, [Diag.wrongCount]) else some (true, []) := by
  cases fuel <;> simp [isValidTraverse, CheckerDT_treeCheck]

/-- C8. With `bIsInitialized` FALSE, `CheckerDT_isValid` returns TRUE exactly
when the count is 0 and the root is NULL, and returns FALSE in every other
case, whatever the tree. -/
theorem C8_uninitialized (env : Env) (fuel : Nat) (oNRoot : Node_T) (ulCount : Nat) :
    (returned (CheckerDT_isValid env fuel false oNRoot ulCount) = some true ↔
      (ulCount = 0 ∧ oNRoot = none)) ∧
    (returned (CheckerDT_isValid env fuel false oNRoot ulCount) = some false ↔
      ¬ (ulCount = 0 ∧ oNRoot = none)) := by
  by_cases hc : ulCount = 0
  · cases oNRoot with
    | none =>
      subst hc
      simp [CheckerDT_isValid, isValidTraverse_none, returned]
    | some r => simp [CheckerDT_isValid, hc, returned]
  · simp [CheckerDT_isValid, hc, returned]

/-- C9. With `bIsInitialized` TRUE, `CheckerDT_isValid` returns FALSE when
"count is 0" and "root is NULL" disagree, returns FALSE when the root has a
parent, and on a NULL root returns TRUE exactly when the count is 0 (FALSE
otherwise). -/
theorem C9_initialized_bookkeeping (env : Env) (fuel : Nat) (ulCount : Nat) :
    (∀ oNRoot : Node_T, ¬ (ulCount = 0 ↔ oNRoot = none) →
      returned (CheckerDT_isValid env fuel true oNRoot ulCount) = some false) ∧
    (∀ r : Addr, env.Node_getParent r ≠ none →
      returned (CheckerDT_isValid env fuel true (some r) ulCount) = some false) ∧
    (returned (CheckerDT_isValid env fuel true none ulCount) = some true ↔ ulCount = 0) ∧
    (returned (CheckerDT_isValid env fuel true none ulCount) = some false ↔ ulCount ≠ 0) := by
  refine ⟨?_, ?_, ?_, ?_⟩
  · intro oNRoot h
    by_cases hc : ulCount = 0
    · cases oNRoot with
      | none => simp [hc] at h
      | some r => simp [CheckerDT_isValid, hc, returned]
    · cases oNRoot with
      | none => simp [CheckerDT_isValid, hc, returned]
      | some r => simp [hc] at h
  · intro r h
    by_cases hc : ulCount = 0
    · simp [CheckerDT_isValid, hc, returned]
    · simp [CheckerDT_isValid, hc, returned, rootParent, h]
  · by_cases hc : ulCount = 0
    · subst hc
      simp [CheckerDT_isValid, isValidTraverse_none, returned]
    · simp [CheckerDT_isValid, hc, returned]
  · by_cases hc : ulCount = 0
    · subst hc
      simp [CheckerDT_isValid, isValidTraverse_none, returned]
    · simp [CheckerDT_isValid, hc, returned]

/-- C9 at the tree "/a", "/a/b", "/a/c": a count of 0 with the root "/a" is
refused, and so is the node "/a/b", which has a parent, as a root. -/
theorem C9_initialized_bookkeeping_witness :
    returned (CheckerDT_isValid (tableEnv treeABC) 5 true (some 1) 0) = some false ∧
    returned (CheckerDT_isValid (tableEnv treeABC) 5 true (some 2) 1) = some false :=
  ⟨(C9_initialized_bookkeeping (tableEnv treeABC) 5 0).1 (some 1) (by decide),
   (C9_initialized_bookkeeping (tableEnv treeABC) 5 1).2.1 2 (by decide)⟩

/-! ## Count exactness -/

theorem reachable_unique (env : Env) {f f' : Nat} {x : Node_T} {l l' : List Addr}
    (h : reachable env f x = some l) (h' : reachable env f' x = some l') : l = l' := by
  have h1 := reachable_mono env (Nat.le_max_left f f') h
  have h2 := reachable_mono env (Nat.le_max_right f f') h'
  rw [h1] at h2
  exact Option.some.inj h2

/-- A run of `CheckerDT_isValid` either stops in the bookkeeping tests with
FALSE or is the traversal followed by the comparison of the counter. -/
theorem isValid_cases (env : Env) (fuel : Nat) (b : Bool) (oNRoot : Node_T) (ulCount : Nat) :
    (∃ d, CheckerDT_isValid env fuel b oNRoot ulCount = some (false, [d])) ∨
    CheckerDT_isValid env fuel b oNRoot ulCount = isValidTraverse env fuel oNRoot ulCount := by
  unfold CheckerDT_isValid
  split
  · split
    · exact Or.inl ⟨_, rfl⟩
    · split
      · exact Or.inl ⟨_, rfl⟩
      · exact Or.inr rfl
  · split
    · exact Or.inl ⟨_, rfl⟩
    · split
      · exact Or.inl ⟨_, rfl⟩
      · split
        · exact Or.inl ⟨_, rfl⟩
        · exact Or.inr rfl

/-- A run that returns TRUE has traversed the whole tree with TRUE and ended
with the counter equal to the claimed count. -/
theorem isValid_true_inv {env : Env} {fuel : Nat} {b : Bool} {oNRoot : Node_T} {ulCount : Nat}
    (h : returned (CheckerDT_isValid env fuel b oNRoot ulCount) = some true) :
    ∃ err, CheckerDT_treeCheck env fuel oNRoot 0 = some (true, ulCount, err) := by
  rcases isValid_cases env fuel b oNRoot ulCount with ⟨d, hd⟩ | ht
  · simp [hd, returned] at h
  · rw [ht] at h
    unfold isValidTraverse at h
    cases h1 : CheckerDT_treeCheck env fuel oNRoot 0 with
    | none => simp [h1, returned] at h
    | some r =>
      obtain ⟨res, c, err⟩ := r
      simp only [h1] at h
      by_cases hc : c = ulCount
      · subst hc
        simp [returned] at h
        subst h
        exact ⟨err, rfl⟩
      · simp [hc, returned] at h

/-- A run whose traversal returns FALSE returns FALSE. -/
theorem isValid_false_of_treeCheck {env : Env} {fuel : Nat} {oNRoot : Node_T} {c : Nat}
    {err : List Diag} (h : CheckerDT_treeCheck env fuel oNRoot 0 = some (false, c, err))
    (b : Bool) (ulCount : Nat) :
    returned (CheckerDT_isValid env fuel b oNRoot ulCount) = some false := by
  rcases isValid_cases env fuel b oNRoot ulCount with ⟨d, hd⟩ | ht
  · simp [hd, returned]
  · rw [ht]
    unfold isValidTraverse
    simp only [h]
    by_cases hc : c = ulCount <;> simp [hc, returned]

/-- With the single-node check defined on every reachable node, a tree that
holds a node the check does not accept is refused. -/
theorem isValid_false_of_bad_node {env : Env} {fuel₀ : Nat} {oNRoot : Node_T} {l : List Addr}
    (hl : reachable env fuel₀ oNRoot = some l)
    (hdef : ∀ m ∈ l, (CheckerDT_Node_isValid env (some m)).isSome)
    {n : Addr} (hn : n ∈ l) (hbad : ¬ NodeOk env n)
    (b : Bool) (ulCount : Nat) {fuel : Nat} (hf : fuel₀ ≤ fuel) :
    returned (CheckerDT_isValid env fuel b oNRoot ulCount) = some false := by
  have hl' := reachable_mono env hf hl
  have ht := treeCheck_total env fuel oNRoot l 0 hl' hdef
  cases h1 : CheckerDT_treeCheck env fuel oNRoot 0 with
  | none => simp [h1] at ht
  | some r =>
    obtain ⟨res, c, err⟩ := r
    cases res with
    | false => exact isValid_false_of_treeCheck h1 b ulCount
    | true =>
      obtain ⟨l2, hl2, _, _, hP⟩ := treeCheck_sound env fuel oNRoot 0 c err h1 SIZE_MOD_pos
      have : l = l2 := reachable_unique env hl' hl2
      subst this
      exact absurd (hP n hn).1 hbad

/-- C1. On an acyclic tree of fewer than `2 ^ 64` nodes (the child traversal
from the root ends and lists the nodes `l`, no node twice): whenever
`CheckerDT_isValid` returns TRUE the claimed count is the number of nodes
reachable from the root (0 for a NULL root); and when the claimed count
differs from that number, `CheckerDT_isValid` returns FALSE, given enough
fuel and a single-node check that dereferences no NULL child.  That no node
is listed twice holds for every accepted acyclic structure once the
comparison helpers meet their contracts (`accepted_nodup`). -/
theorem C1_count_exact (env : Env) (fuel₀ : Nat) (oNRoot : Node_T) (l : List Addr)
    (hacyclic : reachable env fuel₀ oNRoot = some l) (htree : l.Nodup)
    (hsize : l.length < SIZE_MOD) (bIsInitialized : Bool) (ulCount : Nat) :
    (∀ fuel, returned (CheckerDT_isValid env fuel bIsInitialized oNRoot ulCount) = some true →
      ulCount = l.toFinset.card) ∧
    ((∀ m ∈ l, (CheckerDT_Node_isValid env (some m)).isSome) → ulCount ≠ l.toFinset.card →
      ∀ fuel, fuel₀ ≤ fuel →
        returned (CheckerDT_isValid env fuel bIsInitialized oNRoot ulCount) = some false) := by
  have hcard : l.toFinset.card = l.length := List.toFinset_card_of_nodup htree
  have key : ∀ fuel err, CheckerDT_treeCheck env fuel oNRoot 0 = some (true, ulCount, err) →
      ulCount = l.toFinset.card := by
    intro fuel err h
    obtain ⟨l2, hl2, hc, _, _⟩ := treeCheck_sound env fuel oNRoot 0 ulCount err h SIZE_MOD_pos
    have : l = l2 := reachable_unique env hacyclic hl2
    subst this
    rw [hc, hcard, Nat.zero_add, Nat.mod_eq_of_lt hsize]
  refine ⟨?_, ?_⟩
  · intro fuel h
    obtain ⟨err, he⟩ := isValid_true_inv h
    exact key fuel err he
  · intro hdef hne fuel hf
    have hl' := reachable_mono env hf hacyclic
    have ht := treeCheck_total env fuel oNRoot l 0 hl' hdef
    rcases isValid_cases env fuel bIsInitialized oNRoot ulCount with ⟨d, hd⟩ | hcase
    · simp [hd, returned]
    · rw [hcase]
      unfold isValidTraverse
      cases h1 : CheckerDT_treeCheck env fuel oNRoot 0 with
      | none => simp [h1] at ht
      | some r =>
        obtain ⟨res, c, err⟩ := r
        by_cases hc : c = ulCount
        · subst hc
          cases res with
          | false => simp [returned]
          | true => exact absurd (key fuel err h1) hne
        · simp [hc, returned]

/-- C1 at the tree "/a", "/a/b", "/a/c": it holds 3 nodes, so a claimed count
of 2 is refused, and an accepted count is 3. -/
theorem C1_count_exact_witness :
    3 = ([1, 2, 3] : List Addr).toFinset.card ∧
    returned (CheckerDT_isValid (tableEnv treeABC) 2 true (some 1) 2) = some false :=
  ⟨(C1_count_exact (tableEnv treeABC) 2 (some 1) [1, 2, 3] (by decide) (by decide)
      (by decide) true 3).1 2 (by decide),
   (C1_count_exact (tableEnv treeABC) 2 (some 1) [1, 2, 3] (by decide) (by decide)
      (by decide) true 2).2 (by decide) (by decide) 2 (Nat.le_refl 2)⟩

/-! ## The loops of the single-node check -/

theorem pointerCheck_true_iff (env : Env) (n : Addr) :
    ∀ k i, pointerCheck env n k i = true ↔
      ∀ j, i ≤ j → j < i + k → ∀ c, (env.Node_getChild n j).2 = some c →
        env.Node_compare (some n) (env.Node_getParent c) = 0 := by
  intro k
  induction k with
  | zero =>
    intro i
    simp only [pointerCheck, true_iff]
    intro j h1 h2
    omega
  | succ k ih =>
    intro i
    simp only [pointerCheck]
    constructor
    · intro h j h1 h2 c hc
      by_cases hj : j = i
      · subst hj
        rw [hc] at h
        simp only at h
        by_contra hne
        simp [hne] at h
      · have h' : pointerCheck env n k (i + 1) = true := by
          cases hci : (env.Node_getChild n i).2 with
          | none => simpa [hci] using h
          | some ci =>
            rw [hci] at h
            simp only at h
            split at h
            · simp at h
            · exact h
        exact (ih (i + 1)).1 h' j (by omega) (by omega) c hc
    · intro h
      have h' : pointerCheck env n k (i + 1) = true :=
        (ih (i + 1)).2 (fun j h1 h2 => h j (by omega) (by omega))
      cases hci : (env.Node_getChild n i).2 with
      | none => simpa using h'
      | some ci =>
        have := h i (Nat.le_refl _) (by omega) ci hci
        simp [this, h']

theorem orderCheck_true_iff (env : Env) (n : Addr) :
    ∀ k i, orderCheck env n k i = some true ↔
      ∀ j, i ≤ j → j < i + k → ∃ c1 c2, (env.Node_getChild n j).2 = some c1 ∧
        (env.Node_getChild n (j + 1)).2 = some c2 ∧
        ¬ env.Path_comparePath (env.Node_getPath c1) (env.Node_getPath c2) > 0 := by
  intro k
  induction k with
  | zero =>
    intro i
    simp only [orderCheck, true_iff]
    intro j h1 h2
    omega
  | succ k ih =>
    intro i
    simp only [orderCheck]
    constructor
    · intro h j h1 h2
      cases hc1 : (env.Node_getChild n i).2 with
      | none => simp [hc1] at h
      | some c1 =>
        cases hc2 : (env.Node_getChild n (i + 1)).2 with
        | none => simp [hc1, hc2] at h
        | some c2 =>
          simp only [hc1, hc2] at h
          split at h
          · simp at h
          · rename_i hcmp
            by_cases hj : j = i
            · subst hj
              exact ⟨c1, c2, hc1, hc2, hcmp⟩
            · exact (ih (i + 1)).1 h j (by omega) (by omega)
    · intro h
      obtain ⟨c1, c2, hc1, hc2, hcmp⟩ := h i (Nat.le_refl _) (by omega)
      have h' : orderCheck env n k (i + 1) = some true :=
        (ih (i + 1)).2 (fun j h1 h2 => h j (by omega) (by omega))
      simp [hc1, hc2, hcmp, h']

theorem duplicateCheck_true_iff (env : Env) (n : Addr) :
    ∀ k i, duplicateCheck env n k i = some true ↔
      ∀ j, i ≤ j → j < i + k → ∃ c1 c2, (env.Node_getChild n j).2 = some c1 ∧
        (env.Node_getChild n (j + 1)).2 = some c2 ∧
        ¬ env.Path_comparePath (env.Node_getPath c1) (env.Node_getPath c2) = 0 := by
  intro k
  induction k with
  | zero =>
    intro i
    simp only [duplicateCheck, true_iff]
    intro j h1 h2
    omega
  | succ k ih =>
    intro i
    simp only [duplicateCheck]
    constructor
    · intro h j h1 h2
      cases hc1 : (env.Node_getChild n i).2 with
      | none => simp [hc1] at h
      | some c1 =>
        cases hc2 : (env.Node_getChild n (i + 1)).2 with
        | none => simp [hc1, hc2] at h
        | some c2 =>
          simp only [hc1, hc2] at h
          split at h
          · simp at h
          · rename_i hcmp
            by_cases hj : j = i
            · subst hj
              exact ⟨c1, c2, hc1, hc2, hcmp⟩
            · exact (ih (i + 1)).1 h j (by omega) (by omega)
    · intro h
      obtain ⟨c1, c2, hc1, hc2, hcmp⟩ := h i (Nat.le_refl _) (by omega)
      have h' : duplicateCheck env n k (i + 1) = some true :=
        (ih (i + 1)).2 (fun j h1 h2 => h j (by omega) (by omega))
      simp [hc1, hc2, hcmp, h']

/-- The loop on the order of the children returns when no child among those
it reads is NULL. -/
theorem orderCheck_isSome (env : Env) (n : Addr) :
    ∀ k i, (∀ j, i ≤ j → j ≤ i + k → (env.Node_getChild n j).2 ≠ none) →
      (orderCheck env n k i).isSome := by
  intro k
  induction k with
  | zero => intro i _; simp [orderCheck]
  | succ k ih =>
    intro i h
    simp only [orderCheck]
    cases hc1 : (env.Node_getChild n i).2 with
    | none => exact absurd hc1 (h i (Nat.le_refl _) (by omega))
    | some c1 =>
      cases hc2 : (env.Node_getChild n (i + 1)).2 with
      | none => exact absurd hc2 (h (i + 1) (by omega) (by omega))
      | some c2 =>
        simp only
        split
        · simp
        · exact ih (i + 1) (fun j h1 h2 => h j (by omega) (by omega))

/-- The loop on duplicate paths returns when no child among those it reads
is NULL. -/
theorem duplicateCheck_isSome (env : Env) (n : Addr) :
    ∀ k i, (∀ j, i ≤ j → j ≤ i + k → (env.Node_getChild n j).2 ≠ none) →
      (duplicateCheck env n k i).isSome := by
  intro k
  induction k with
  | zero => intro i _; simp [duplicateCheck]
  | succ k ih =>
    intro i h
    simp only [duplicateCheck]
    cases hc1 : (env.Node_getChild n i).2 with
    | none => exact absurd hc1 (h i (Nat.le_refl _) (by omega))
    | some c1 =>
      cases hc2 : (env.Node_getChild n (i + 1)).2 with
      | none => exact absurd hc2 (h (i + 1) (by omega) (by omega))
      | some c2 =>
        simp only
        split
        · simp
        · exact ih (i + 1) (fun j h1 h2 => h j (by omega) (by omega))

/-! ## The single-node check -/

/-- The single-node check accepts a node exactly when each of its four tests
passes. -/
theorem NodeOk_iff (env : Env) (n : Addr) :
    NodeOk env n ↔
      parentPathBad env n = false ∧
      pointerCheck env n (env.Node_getNumChildren n) 0 = true ∧
      (env.Node_getNumChildren n > 1 →
        orderCheck env n (env.Node_getNumChildren n - 1) 0 = some true ∧
        duplicateCheck env n (env.Node_getNumChildren n - 1) 0 = some true) := by
  unfold NodeOk CheckerDT_Node_isValid
  simp only
  cases hp : parentPathBad env n with
  | true => simp
  | false =>
    cases hq : pointerCheck env n (env.Node_getNumChildren n) 0 with
    | false => simp
    | true =>
      by_cases hk : env.Node_getNumChildren n > 1
      · simp only [hk, if_true]
        cases ho : orderCheck env n (env.Node_getNumChildren n - 1) 0 with
        | none => simp
        | some bo =>
          cases bo with
          | false => simp
          | true =>
            cases hd : duplicateCheck env n (env.Node_getNumChildren n - 1) 0 with
            | none => simp
            | some bd => cases bd <;> simp
      · simp [hk]

theorem returned_true_iff_NodeOk (env : Env) (n : Addr) :
    returned (CheckerDT_Node_isValid env (some n)) = some true ↔ NodeOk env n := by
  constructor
  · intro h
    cases h1 : CheckerDT_Node_isValid env (some n) with
    | none => simp [h1, returned] at h
    | some r =>
      obtain ⟨b, e⟩ := r
      simp [h1, returned] at h
      subst h
      have := Node_isValid_true_err h1
      subst this
      exact h1
  · intro h
    unfold NodeOk at h
    simp [h, returned]

/-- The single-node check returns when no child of the node is NULL. -/
theorem Node_isValid_isSome (env : Env) (n : Addr)
    (h : ∀ i, i < env.Node_getNumChildren n → (env.Node_getChild n i).2 ≠ none) :
    (CheckerDT_Node_isValid env (some n)).isSome := by
  unfold CheckerDT_Node_isValid
  simp only
  split
  · simp
  · split
    · simp
    · by_cases hk : env.Node_getNumChildren n > 1
      · have ho := orderCheck_isSome env n (env.Node_getNumChildren n - 1) 0
          (fun j _ h2 => h j (by omega))
        have hd := duplicateCheck_isSome env n (env.Node_getNumChildren n - 1) 0
          (fun j _ h2 => h j (by omega))
        simp only [hk, if_true]
        cases h1 : orderCheck env n (env.Node_getNumChildren n - 1) 0 with
        | none => simp [h1] at ho
        | some bo =>
          cases bo with
          | false => simp
          | true =>
            cases h2 : duplicateCheck env n (env.Node_getNumChildren n - 1) 0 with
            | none => simp [h2] at hd
            | some bd => cases bd <;> simp
      · simp [hk]

/-- A run that does not return TRUE but returns, returns FALSE. -/
theorem returned_false_of_not_ok {env : Env} {n : Addr}
    (hdef : (CheckerDT_Node_isValid env (some n)).isSome) (hbad : ¬ NodeOk env n) :
    returned (CheckerDT_Node_isValid env (some n)) = some false := by
  cases h1 : CheckerDT_Node_isValid env (some n) with
  | none => simp [h1] at hdef
  | some r =>
    obtain ⟨b, e⟩ := r
    cases b with
    | false => simp [returned]
    | true =>
      have := Node_isValid_true_err h1
      subst this
      exact absurd h1 hbad

theorem sizeSub_one_of_pos {d : Nat} (h1 : 0 < d) (h2 : d < SIZE_MOD) : sizeSub d 1 = d - 1 := by
  unfold sizeSub
  have h3 : (1 : Nat) % SIZE_MOD = 1 := by decide
  rw [h3]
  have h4 : d + SIZE_MOD - 1 = (d - 1) + SIZE_MOD := by omega
  rw [h4, Nat.add_mod_right]
  exact Nat.mod_eq_of_lt (by omega)

/-! ## Completeness on well-formed trees -/

theorem reachable_some_cons {env : Env} {fuel : Nat} {r : Addr} {l : List Addr}
    (h : reachable env fuel (some r) = some l) : ∃ l', l = r :: l' := by
  cases fuel with
  | zero => simp [reachable] at h
  | succ f =>
    simp only [reachable] at h
    cases h1 : reachableLoop env (reachable env f) r (env.Node_getNumChildren r) 0 with
    | none => simp [h1] at h
    | some a =>
      simp only [h1, Option.some.injEq] at h
      exact ⟨a, h.symm⟩

/-- C2. An initialized tree is accepted with the number of its nodes as
count, when: the child traversal from the root ends (listing the nodes `l`,
no node twice, fewer than `2 ^ 64`), the root has no parent, every child
enumeration returns SUCCESS and a node, every node with a parent shares with
it a prefix of depth one less than its own depth (depths being `size_t`
values), the recorded parent of every child is the node that lists it
(`Node_compare` being 0 on the same node only) and adjacent children compare
strictly ascending.  In particular a single parentless, childless root is
accepted with count 1. -/
theorem C2_wellformed_accepted (env : Env) (fuel₀ : Nat) (r : Addr) (l : List Addr)
    (hacyclic : reachable env fuel₀ (some r) = some l) (htree : l.Nodup)
    (hsize : l.length < SIZE_MOD)
    (hroot : env.Node_getParent r = none)
    (henum : ∀ m ∈ l, EnumOk env m)
    (hdepth : ∀ m ∈ l, Path_getDepth (env.Node_getPath m) < SIZE_MOD)
    (hshared : ∀ m ∈ l, ∀ p ∈ env.Node_getParent m,
      (Path_getSharedPrefixDepth (env.Node_getPath m) (env.Node_getPath p) : Int)
        = (Path_getDepth (env.Node_getPath m) : Int) - 1)
    (hcompare : NodeCompareSpec env)
    (hback : ∀ m ∈ l, ∀ i < env.Node_getNumChildren m, ∀ c ∈ (env.Node_getChild m i).2,
      env.Node_getParent c = some m)
    (hsorted : ∀ m ∈ l, ∀ i < env.Node_getNumChildren m - 1,
      ∀ c1 ∈ (env.Node_getChild m i).2, ∀ c2 ∈ (env.Node_getChild m (i + 1)).2,
        env.Path_comparePath (env.Node_getPath c1) (env.Node_getPath c2) < 0) :
    (∀ fuel, fuel₀ ≤ fuel →
      CheckerDT_isValid env fuel true (some r) l.toFinset.card = some (true, [])) ∧
    (env.Node_getNumChildren r = 0 → ∀ fuel, 1 ≤ fuel →
      CheckerDT_isValid env fuel true (some r) 1 = some (true, [])) := by
  have hcard : l.toFinset.card = l.length := List.toFinset_card_of_nodup htree
  have hok : ∀ m ∈ l, NodeOk env m ∧ StatusOk env m := by
    intro m hm
    refine ⟨(NodeOk_iff env m).2 ⟨?_, ?_, ?_⟩, fun i hi => (henum m hm i hi).1⟩
    · unfold parentPathBad
      cases hp : env.Node_getParent m with
      | none => rfl
      | some p =>
        have h1 := hshared m hm p (by simp [hp])
        have h2 := hdepth m hm
        have h3 : 0 < Path_getDepth (env.Node_getPath m) := by omega
        simp only [decide_eq_false_iff_not, not_not]
        rw [sizeSub_one_of_pos h3 h2]
        omega
    · rw [pointerCheck_true_iff]
      intro j _ hj c hc
      have := hback m hm j (by omega) c (by simp [hc])
      rw [this]
      exact (hcompare _ _).2 rfl
    · intro hk
      constructor
      · rw [orderCheck_true_iff]
        intro j _ hj
        have e1 := (henum m hm j (by omega)).2
        have e2 := (henum m hm (j + 1) (by omega)).2
        obtain ⟨c1, hc1⟩ := Option.ne_none_iff_exists'.1 e1
        obtain ⟨c2, hc2⟩ := Option.ne_none_iff_exists'.1 e2
        have := hsorted m hm j (by omega) c1 (by simp [hc1]) c2 (by simp [hc2])
        exact ⟨c1, c2, hc1, hc2, by omega⟩
      · rw [duplicateCheck_true_iff]
        intro j _ hj
        have e1 := (henum m hm j (by omega)).2
        have e2 := (henum m hm (j + 1) (by omega)).2
        obtain ⟨c1, hc1⟩ := Option.ne_none_iff_exists'.1 e1
        obtain ⟨c2, hc2⟩ := Option.ne_none_iff_exists'.1 e2
        have := hsorted m hm j (by omega) c1 (by simp [hc1]) c2 (by simp [hc2])
        exact ⟨c1, c2, hc1, hc2, by omega⟩
  obtain ⟨l', hl'⟩ := reachable_some_cons hacyclic
  have hpos : l.length ≠ 0 := by rw [hl']; simp
  refine ⟨?_, ?_⟩
  · intro fuel hf
    have h1 := treeCheck_complete env fuel (some r) l 0 (reachable_mono env hf hacyclic) hok
      SIZE_MOD_pos
    rw [Nat.zero_add, Nat.mod_eq_of_lt hsize] at h1
    simp [CheckerDT_isValid, isValidTraverse, rootParent, hroot, hcard, hpos, h1]
  · intro hnum fuel hf
    obtain ⟨f, rfl⟩ : ∃ f, fuel = f + 1 := ⟨fuel - 1, by omega⟩
    have hr : NodeOk env r := (hok r (by rw [hl']; simp)).1
    unfold NodeOk at hr
    have h1 : CheckerDT_treeCheck env (f + 1) (some r) 0 = some (true, 1, []) := by
      simp only [CheckerDT_treeCheck, hr, hnum, treeCheckLoop]
      decide
    simp [CheckerDT_isValid, isValidTraverse, rootParent, hroot, h1]

/-- The comparison of nodes of a table is 0 on the same node only. -/
theorem tableEnv_compare_spec (tbl : Addr → NodeRec) : NodeCompareSpec (tableEnv tbl) := by
  intro a b
  by_cases h : a = b <;> simp [tableEnv, h]

/-- C2 at the tree "/a", "/a/b", "/a/c": accepted with count 3. -/
theorem C2_wellformed_accepted_witness :
    CheckerDT_isValid (tableEnv treeABC) 2 true (some 1) ([1, 2, 3] : List Addr).toFinset.card
      = some (true, []) :=
  (C2_wellformed_accepted (tableEnv treeABC) 2 1 [1, 2, 3] (by decide) (by decide) (by decide)
    (by decide) (by decide) (by decide) (by decide) (tableEnv_compare_spec treeABC)
    (by decide) (by decide)).1 2 (Nat.le_refl 2)

/-! ## Sortedness and back-references over the whole tree -/

theorem EnumOk_isSome {env : Env} {m : Addr} (h : EnumOk env m) :
    (CheckerDT_Node_isValid env (some m)).isSome :=
  Node_isValid_isSome env m (fun i hi => (h i hi).2)

/-- An accepted node has its adjacent children strictly ascending. -/
theorem NodeOk_adjacent {env : Env} {n : Addr} (hok : NodeOk env n) {i : Nat}
    (hi : i + 1 < env.Node_getNumChildren n) {c1 c2 : Addr}
    (hc1 : (env.Node_getChild n i).2 = some c1)
    (hc2 : (env.Node_getChild n (i + 1)).2 = some c2) :
    env.Path_comparePath (env.Node_getPath c1) (env.Node_getPath c2) < 0 := by
  obtain ⟨_, _, h3⟩ := (NodeOk_iff env n).1 hok
  obtain ⟨ho, hd⟩ := h3 (by omega)
  obtain ⟨a1, a2, ha1, ha2, hle⟩ :=
    (orderCheck_true_iff env n _ 0).1 ho i (Nat.zero_le _) (by omega)
  obtain ⟨b1, b2, hb1, hb2, hne⟩ :=
    (duplicateCheck_true_iff env n _ 0).1 hd i (Nat.zero_le _) (by omega)
  rw [hc1] at ha1 hb1
  rw [hc2] at ha2 hb2
  cases ha1; cases ha2; cases hb1; cases hb2
  omega

/-- C3. On an acyclic tree whose child enumerations all return SUCCESS and a
node, when some reachable node has two adjacent children that do not compare
strictly ascending, `CheckerDT_isValid` returns FALSE for every initialized
flag and every count (given the fuel that lists the tree). -/
theorem C3_sortedness_enforced (env : Env) (fuel₀ : Nat) (oNRoot : Node_T) (l : List Addr)
    (hacyclic : reachable env fuel₀ oNRoot = some l)
    (henum : ∀ m ∈ l, EnumOk env m)
    (n : Addr) (hn : n ∈ l) (i : Nat) (hi : i + 1 < env.Node_getNumChildren n)
    (c1 c2 : Addr) (hc1 : (env.Node_getChild n i).2 = some c1)
    (hc2 : (env.Node_getChild n (i + 1)).2 = some c2)
    (hbad : ¬ env.Path_comparePath (env.Node_getPath c1) (env.Node_getPath c2) < 0)
    (bIsInitialized : Bool) (ulCount : Nat) (fuel : Nat) (hfuel : fuel₀ ≤ fuel) :
    returned (CheckerDT_isValid env fuel bIsInitialized oNRoot ulCount) = some false :=
  isValid_false_of_bad_node hacyclic (fun m hm => EnumOk_isSome (henum m hm)) hn
    (fun hok => hbad (NodeOk_adjacent hok hi hc1 hc2)) bIsInitialized ulCount hfuel

/-- C3 at the tree "/a" with "/a/c" stored before "/a/b": refused, even with
the right count 3. -/
theorem C3_sortedness_enforced_witness :
    returned (CheckerDT_isValid (tableEnv treeACB) 2 true (some 1) 3) = some false :=
  C3_sortedness_enforced (tableEnv treeACB) 2 (some 1) [1, 3, 2] (by decide) (by decide)
    1 (by decide) 0 (by decide) 3 2 (by decide) (by decide) (by decide) true 3 2 (Nat.le_refl 2)

/-- C4. With `Node_compare` 0 on the same node only: a node `n` with a
child `c` whose recorded parent is a node `p` other than `n` is refused by
the single-node check, and every tree in which `n` is reachable is refused by
`CheckerDT_isValid`, whatever the flag and the count (given the fuel that
lists the tree and a single-node check that dereferences no NULL child). -/
theorem C4_backref_enforced (env : Env)
    (hcompare : NodeCompareSpec env)
    (n : Addr) (i : Nat) (hi : i < env.Node_getNumChildren n) (c : Addr)
    (hc : (env.Node_getChild n i).2 = some c)
    (p : Addr) (hparent : env.Node_getParent c = some p) (hother : p ≠ n) :
    returned (CheckerDT_Node_isValid env (some n)) = some false ∧
    ∀ (fuel₀ : Nat) (oNRoot : Node_T) (l : List Addr), reachable env fuel₀ oNRoot = some l →
      n ∈ l → (∀ m ∈ l, (CheckerDT_Node_isValid env (some m)).isSome) →
      ∀ (bIsInitialized : Bool) (ulCount fuel : Nat), fuel₀ ≤ fuel →
        returned (CheckerDT_isValid env fuel bIsInitialized oNRoot ulCount) = some false := by
  have hptr : pointerCheck env n (env.Node_getNumChildren n) 0 = false := by
    cases h : pointerCheck env n (env.Node_getNumChildren n) 0 with
    | false => rfl
    | true =>
      have := (pointerCheck_true_iff env n _ 0).1 h i (Nat.zero_le _) (by omega) c hc
      rw [hparent] at this
      exact absurd ((hcompare _ _).1 this).symm hother
  have hbad : ¬ NodeOk env n := by
    intro hok
    have := ((NodeOk_iff env n).1 hok).2.1
    rw [hptr] at this
    exact Bool.noConfusion this
  refine ⟨?_, ?_⟩
  · unfold CheckerDT_Node_isValid
    simp only [hptr]
    split <;> simp [returned]
  · intro fuel₀ oNRoot l hl hn hdef b ulCount fuel hf
    exact isValid_false_of_bad_node hl hdef hn hbad b ulCount hf

/-- C4 at the tree "/a" whose child "/a/b" records another node as parent:
the node "/a" is refused, and so is the tree. -/
theorem C4_backref_enforced_witness :
    returned (CheckerDT_Node_isValid (tableEnv treeWrongParent) (some 1)) = some false ∧
    returned (CheckerDT_isValid (tableEnv treeWrongParent) 2 true (some 1) 2) = some false :=
  ⟨(C4_backref_enforced (tableEnv treeWrongParent) (tableEnv_compare_spec treeWrongParent)
      1 0 (by decide) 2 (by decide) 7 (by decide) (by decide)).1,
   (C4_backref_enforced (tableEnv treeWrongParent) (tableEnv_compare_spec treeWrongParent)
      1 0 (by decide) 2 (by decide) 7 (by decide) (by decide)).2 2 (some 1) [1, 2] (by decide)
      (by decide)
      (by decide) true 2 2 (Nat.le_refl 2)⟩

/-! ## Paths of parent and child, paths of siblings -/

/-- C5. The node "/a/b" whose parent has the path "/a/c/d" is accepted by the
single-node check, although the parent's path is not "/a": the test of lines
36-37 compares the depth of the shared prefix with the depth of the node only,
not with the depth of the parent. -/
theorem C5_parent_path_not_enforced :
    CheckerDT_Node_isValid (tableEnv treeDeepParent) (some 2) = some (true, []) ∧
    (tableEnv treeDeepParent).Node_getParent 2 = some 1 ∧
    (tableEnv treeDeepParent).Node_getPath 1
      ≠ ((tableEnv treeDeepParent).Node_getPath 2).dropLast ∧
    Path_getDepth ((tableEnv treeDeepParent).Node_getPath 1)
      ≠ Path_getDepth ((tableEnv treeDeepParent).Node_getPath 2) - 1 := by
  decide

/-- An accepted node with two children or more has no NULL child. -/
theorem NodeOk_children {env : Env} {n : Addr} (hok : NodeOk env n)
    (hk : env.Node_getNumChildren n > 1) {i : Nat} (hi : i < env.Node_getNumChildren n) :
    (env.Node_getChild n i).2 ≠ none := by
  obtain ⟨ho, _⟩ := ((NodeOk_iff env n).1 hok).2.2 hk
  have hall := (orderCheck_true_iff env n _ 0).1 ho
  by_cases hlast : i + 1 < env.Node_getNumChildren n
  · obtain ⟨c1, _, hc1, _, _⟩ := hall i (Nat.zero_le _) (by omega)
    simp [hc1]
  · obtain ⟨_, c2, _, hc2, _⟩ := hall (i - 1) (Nat.zero_le _) (by omega)
    have : i - 1 + 1 = i := by omega
    rw [this] at hc2
    simp [hc2]

/-- The children of an accepted node ascend strictly, also at a distance. -/
theorem NodeOk_ascending {env : Env} (horder : StrictPathOrder env) {n : Addr}
    (hok : NodeOk env n) :
    ∀ d i ci cj, i + d + 1 < env.Node_getNumChildren n →
      (env.Node_getChild n i).2 = some ci → (env.Node_getChild n (i + d + 1)).2 = some cj →
      env.Path_comparePath (env.Node_getPath ci) (env.Node_getPath cj) < 0 := by
  intro d
  induction d with
  | zero =>
    intro i ci cj hi hci hcj
    exact NodeOk_adjacent hok hi hci hcj
  | succ d ih =>
    intro i ci cj hi hci hcj
    obtain ⟨ck, hck⟩ := Option.ne_none_iff_exists'.1
      (NodeOk_children hok (by omega) (i := i + d + 1) (by omega))
    have h1 := ih i ci ck (by omega) hci hck
    have h2 := NodeOk_adjacent hok (i := i + d + 1) (by omega) hck hcj
    exact horder.2 _ _ _ h1 h2

/-- C6. When `Path_comparePath` orders the paths strictly, a node accepted by
the single-node check has no two children with equal paths, at any two
distinct identifiers (whether or not their enumerations report SUCCESS: an
accepted node with two children or more has no NULL child). -/
theorem C6_children_paths_distinct (env : Env) (horder : StrictPathOrder env) (n : Addr)
    (hvalid : returned (CheckerDT_Node_isValid env (some n)) = some true)
    (i j : Nat) (hi : i < env.Node_getNumChildren n) (hj : j < env.Node_getNumChildren n)
    (hij : i ≠ j) (ci cj : Addr) (hci : (env.Node_getChild n i).2 = some ci)
    (hcj : (env.Node_getChild n j).2 = some cj) :
    env.Node_getPath ci ≠ env.Node_getPath cj := by
  have hok : NodeOk env n := (returned_true_iff_NodeOk env n).1 hvalid
  intro heq
  rcases Nat.lt_or_gt_of_ne hij with hlt | hgt
  · obtain ⟨d, rfl⟩ : ∃ d, j = i + d + 1 := ⟨j - i - 1, by omega⟩
    have := NodeOk_ascending horder hok d i ci cj hj hci hcj
    rw [heq, horder.1] at this
    exact absurd this (by decide)
  · obtain ⟨d, rfl⟩ : ∃ d, i = j + d + 1 := ⟨i - j - 1, by omega⟩
    have := NodeOk_ascending horder hok d j cj ci hi hcj hci
    rw [heq, horder.1] at this
    exact absurd this (by decide)

/-- The comparison of pathnames orders the paths strictly. -/
theorem tableEnv_order (tbl : Addr → NodeRec) : StrictPathOrder (tableEnv tbl) := by
  constructor
  · intro a
    simp [tableEnv, comparePathnames]
  · intro a b c h1 h2
    simp only [tableEnv, comparePathnames] at h1 h2 ⊢
    have e1 : pathCodes a < pathCodes b := by
      by_contra h
      rw [if_neg h] at h1
      split at h1 <;> simp at h1
    have e2 : pathCodes b < pathCodes c := by
      by_contra h
      rw [if_neg h] at h2
      split at h2 <;> simp at h2
    rw [if_pos (lt_trans e1 e2)]
    decide

/-- C6 at the tree "/a", "/a/b", "/a/c": the node "/a" is accepted and its
two children have different paths. -/
theorem C6_children_paths_distinct_witness :
    (tableEnv treeABC).Node_getPath 2 ≠ (tableEnv treeABC).Node_getPath 3 :=
  C6_children_paths_distinct (tableEnv treeABC) (tableEnv_order treeABC) 1
    (by decide) 0 1 (by decide) (by decide) (by decide) 2 3 (by decide) (by decide)

/-- C7. The chain "/a/b", "/a/c", "/a/b" (root, child, grandchild) is accepted
as an initialized tree of 3 nodes, although the root and the grandchild are
two nodes with the same path: each node passes the test of lines 36-37
against its parent. -/
theorem C7_same_path_accepted :
    reachable (tableEnv treeSamePath) 3 (some 1) = some [1, 2, 3] ∧
    CheckerDT_isValid (tableEnv treeSamePath) 3 true (some 1) 3 = some (true, []) ∧
    (1 : Addr) ≠ 3 ∧
    (tableEnv treeSamePath).Node_getPath 1 = (tableEnv treeSamePath).Node_getPath 3 := by
  decide

/-! ## The order of the checks of the single-node check -/

theorem parentPathBad_iff (env : Env) (n : Addr) :
    parentPathBad env n = true ↔ ParentPathFails env n := by
  unfold parentPathBad ParentPathFails
  cases hp : env.Node_getParent n with
  | none => simp
  | some p => simp

theorem pointerCheck_false_iff (env : Env) (n : Addr) :
    pointerCheck env n (env.Node_getNumChildren n) 0 = false ↔ BackRefFails env n := by
  unfold BackRefFails
  constructor
  · intro h
    by_contra hno
    have : pointerCheck env n (env.Node_getNumChildren n) 0 = true := by
      rw [pointerCheck_true_iff]
      intro j _ hj c hc
      by_contra hne
      exact hno ⟨j, by omega, c, by simp [hc], hne⟩
    rw [h] at this
    exact Bool.noConfusion this
  · rintro ⟨i, hi, c, hc, hne⟩
    cases h : pointerCheck env n (env.Node_getNumChildren n) 0 with
    | false => rfl
    | true =>
      have := (pointerCheck_true_iff env n _ 0).1 h i (Nat.zero_le _) (by omega) c
        (by simpa using hc)
      exact absurd this hne

theorem order_stage (env : Env) (n : Addr) (hnn : ChildrenNonNull env n) :
    (if env.Node_getNumChildren n > 1 then orderCheck env n (env.Node_getNumChildren n - 1) 0
      else some true) = some (!decide (OrderFails env n)) := by
  by_cases hk : env.Node_getNumChildren n > 1
  · simp only [hk, if_true]
    have hs := orderCheck_isSome env n (env.Node_getNumChildren n - 1) 0
      (fun j _ h2 => hnn j (by omega))
    cases h : orderCheck env n (env.Node_getNumChildren n - 1) 0 with
    | none => simp [h] at hs
    | some b =>
      cases b with
      | true =>
        have hall := (orderCheck_true_iff env n _ 0).1 h
        have : ¬ OrderFails env n := by
          rintro ⟨i, hi, c1, hc1, c2, hc2, hgt⟩
          obtain ⟨a1, a2, ha1, ha2, hle⟩ := hall i (Nat.zero_le _) (by omega)
          rw [Option.mem_def] at hc1 hc2
          rw [hc1] at ha1
          rw [hc2] at ha2
          cases ha1; cases ha2
          exact hle hgt
        simp [this]
      | false =>
        have : OrderFails env n := by
          by_contra hno
          have : orderCheck env n (env.Node_getNumChildren n - 1) 0 = some true := by
            rw [orderCheck_true_iff]
            intro j _ hj
            obtain ⟨c1, hc1⟩ := Option.ne_none_iff_exists'.1 (hnn j (by omega))
            obtain ⟨c2, hc2⟩ := Option.ne_none_iff_exists'.1 (hnn (j + 1) (by omega))
            refine ⟨c1, c2, hc1, hc2, fun hgt => hno ⟨j, by omega, c1, ?_, c2, ?_, hgt⟩⟩
            · simp [hc1]
            · simp [hc2]
          rw [h] at this
          simp at this
        simp [this]
  · have : ¬ OrderFails env n := by
      rintro ⟨i, hi, _⟩
      omega
    simp [hk, this]

theorem duplicate_stage (env : Env) (n : Addr) (hnn : ChildrenNonNull env n) :
    (if env.Node_getNumChildren n > 1 then
        duplicateCheck env n (env.Node_getNumChildren n - 1) 0
      else some true) = some (!decide (DuplicateFails env n)) := by
  by_cases hk : env.Node_getNumChildren n > 1
  · simp only [hk, if_true]
    have hs := duplicateCheck_isSome env n (env.Node_getNumChildren n - 1) 0
      (fun j _ h2 => hnn j (by omega))
    cases h : duplicateCheck env n (env.Node_getNumChildren n - 1) 0 with
    | none => simp [h] at hs
    | some b =>
      cases b with
      | true =>
        have hall := (duplicateCheck_true_iff env n _ 0).1 h
        have : ¬ DuplicateFails env n := by
          rintro ⟨i, hi, c1, hc1, c2, hc2, heq⟩
          obtain ⟨a1, a2, ha1, ha2, hne⟩ := hall i (Nat.zero_le _) (by omega)
          rw [Option.mem_def] at hc1 hc2
          rw [hc1] at ha1
          rw [hc2] at ha2
          cases ha1; cases ha2
          exact hne heq
        simp [this]
      | false =>
        have : DuplicateFails env n := by
          by_contra hno
          have : duplicateCheck env n (env.Node_getNumChildren n - 1) 0 = some true := by
            rw [duplicateCheck_true_iff]
            intro j _ hj
            obtain ⟨c1, hc1⟩ := Option.ne_none_iff_exists'.1 (hnn j (by omega))
            obtain ⟨c2, hc2⟩ := Option.ne_none_iff_exists'.1 (hnn (j + 1) (by omega))
            refine ⟨c1, c2, hc1, hc2, fun heq => hno ⟨j, by omega, c1, ?_, c2, ?_, heq⟩⟩
            · simp [hc1]
            · simp [hc2]
          rw [h] at this
          simp at this
        simp [this]
  · have : ¬ DuplicateFails env n := by
      rintro ⟨i, hi, _⟩
      omega
    simp [hk, this]

/-- C10. The single-node check reports the first failing check, in the order
NULL node, parent's path, recorded parent of the children, order of the
children, duplicate paths: a NULL node is reported as such; a failing test of
the parent's path is reported whatever the children; otherwise a child with a
wrong recorded parent is reported as a parent/child conflict whatever the
order of the children; otherwise (no child being NULL) a pair out of order is
reported as an order violation whatever equal pairs there are; otherwise an
equal pair is reported as duplicate paths; otherwise the node is accepted. -/
theorem C10_check_order (env : Env) :
    CheckerDT_Node_isValid env none = some (false, [Diag.nullNode]) ∧
    (∀ n, ParentPathFails env n →
      CheckerDT_Node_isValid env (some n)
        = some (false, [Diag.parentChildPaths (parentPath env n) (env.Node_getPath n)])) ∧
    (∀ n, ¬ ParentPathFails env n → BackRefFails env n →
      CheckerDT_Node_isValid env (some n) = some (false, [Diag.conflictingParent])) ∧
    (∀ n, ¬ ParentPathFails env n → ¬ BackRefFails env n → ChildrenNonNull env n →
      OrderFails env n →
      CheckerDT_Node_isValid env (some n) = some (false, [Diag.lexOrder])) ∧
    (∀ n, ¬ ParentPathFails env n → ¬ BackRefFails env n → ChildrenNonNull env n →
      ¬ OrderFails env n → DuplicateFails env n →
      CheckerDT_Node_isValid env (some n) = some (false, [Diag.duplicatePaths])) ∧
    (∀ n, ¬ ParentPathFails env n → ¬ BackRefFails env n → ChildrenNonNull env n →
      ¬ OrderFails env n → ¬ DuplicateFails env n →
      CheckerDT_Node_isValid env (some n) = some (true, [])) := by
  have hpp : ∀ n, ¬ ParentPathFails env n → parentPathBad env n = false := by
    intro n h
    cases hb : parentPathBad env n with
    | false => rfl
    | true => exact absurd ((parentPathBad_iff env n).1 hb) h
  have hbr : ∀ n, ¬ BackRefFails env n →
      pointerCheck env n (env.Node_getNumChildren n) 0 = true := by
    intro n h
    cases hb : pointerCheck env n (env.Node_getNumChildren n) 0 with
    | true => rfl
    | false => exact absurd ((pointerCheck_false_iff env n).1 hb) h
  refine ⟨rfl, ?_, ?_, ?_, ?_, ?_⟩
  · intro n h
    simp [CheckerDT_Node_isValid, (parentPathBad_iff env n).2 h]
  · intro n h1 h2
    simp [CheckerDT_Node_isValid, hpp n h1, (pointerCheck_false_iff env n).2 h2]
  · intro n h1 h2 h3 h4
    unfold CheckerDT_Node_isValid
    simp only [hpp n h1, hbr n h2, order_stage env n h3]
    simp [h4]
  · intro n h1 h2 h3 h4 h5
    unfold CheckerDT_Node_isValid
    simp only [hpp n h1, hbr n h2, order_stage env n h3, duplicate_stage env n h3]
    simp [h4, h5]
  · intro n h1 h2 h3 h4 h5
    unfold CheckerDT_Node_isValid
    simp only [hpp n h1, hbr n h2, order_stage env n h3, duplicate_stage env n h3]
    simp [h4, h5]

/-- C10 at two nodes: "/a" with its children out of order and one of them
recording another parent is reported as a parent/child conflict; "/a" with the
children "/a/b", "/a/b", "/a/d", "/a/c" is reported as an order violation. -/
theorem C10_check_order_witness :
    CheckerDT_Node_isValid (tableEnv treeTwoDefects) (some 1)
      = some (false, [Diag.conflictingParent]) ∧
    CheckerDT_Node_isValid (tableEnv treeDupThenOrder) (some 1)
      = some (false, [Diag.lexOrder]) :=
  ⟨(C10_check_order (tableEnv treeTwoDefects)).2.2.1 1 (by decide) (by decide),
   (C10_check_order (tableEnv treeDupThenOrder)).2.2.2.1 1 (by decide) (by decide) (by decide)
     (by decide)⟩

/-! ## Accepted structures are trees -/

theorem reachable_none (env : Env) (f : Nat) : reachable env f none = some [] := by
  cases f <;> rfl

/-- A node listed by the loop over the children is listed below one child. -/
theorem reachableLoop_mem {env : Env} {rrec : Node_T → Option (List Addr)}
    (hnone : rrec none = some []) (n : Addr) {m : Addr} :
    ∀ k i ll, reachableLoop env rrec n k i = some ll → m ∈ ll →
      ∃ j c lj, i ≤ j ∧ j < i + k ∧ childAt env n j = some c ∧ rrec (some c) = some lj ∧
        m ∈ lj ∧ lj.length ≤ ll.length := by
  intro k
  induction k with
  | zero =>
    intro i ll h hm
    simp only [reachableLoop, Option.some.injEq] at h
    subst h
    simp at hm
  | succ k ih =>
    intro i ll h hm
    simp only [reachableLoop] at h
    cases h1 : rrec (childAt env n i) with
    | none => simp [h1] at h
    | some l1 =>
      cases h2 : reachableLoop env rrec n k (i + 1) with
      | none => simp [h1, h2] at h
      | some l2 =>
        simp only [h1, h2, Option.some.injEq] at h
        subst h
        rcases List.mem_append.1 hm with hm1 | hm2
        · cases hc : childAt env n i with
          | none =>
            rw [hc, hnone] at h1
            cases h1
            simp at hm1
          | some c =>
            rw [hc] at h1
            exact ⟨i, c, l1, Nat.le_refl _, by omega, hc, h1, hm1, by simp⟩
        · obtain ⟨j, c, lj, h1j, h2j, hc, hr, hmj, hlen⟩ := ih (i + 1) l2 h2 hm2
          exact ⟨j, c, lj, by omega, by omega, hc, hr, hmj, by
            rw [List.length_append]; omega⟩

/-- The nodes below a child are among the nodes the loop lists. -/
theorem reachableLoop_sub {env : Env} {rrec : Node_T → Option (List Addr)} (n : Addr) :
    ∀ k i ll, reachableLoop env rrec n k i = some ll →
      ∀ j lj, i ≤ j → j < i + k → rrec (childAt env n j) = some lj → ∀ y ∈ lj, y ∈ ll := by
  intro k
  induction k with
  | zero => intro i ll _ j lj h1 h2; omega
  | succ k ih =>
    intro i ll h j lj h1j h2j hr y hy
    simp only [reachableLoop] at h
    cases h1 : rrec (childAt env n i) with
    | none => simp [h1] at h
    | some l1 =>
      cases h2 : reachableLoop env rrec n k (i + 1) with
      | none => simp [h1, h2] at h
      | some l2 =>
        simp only [h1, h2, Option.some.injEq] at h
        subst h
        by_cases hj : j = i
        · subst hj
          rw [h1] at hr
          cases hr
          exact List.mem_append.2 (Or.inl hy)
        · exact List.mem_append.2
            (Or.inr (ih (i + 1) l2 h2 j lj (by omega) (by omega) hr y hy))

/-- The traversal from a reachable node ends as well, on a list that is not
longer. -/
theorem reachable_of_mem (env : Env) :
    ∀ f x l, reachable env f x = some l → ∀ m ∈ l,
      ∃ l', reachable env f (some m) = some l' ∧ l'.length ≤ l.length := by
  intro f
  induction f with
  | zero =>
    intro x l h m hm
    cases x with
    | none =>
      simp only [reachable, Option.some.injEq] at h
      subst h
      simp at hm
    | some n => simp [reachable] at h
  | succ f ih =>
    intro x l h m hm
    cases x with
    | none =>
      simp only [reachable, Option.some.injEq] at h
      subst h
      simp at hm
    | some n =>
      have h0 := h
      simp only [reachable] at h
      cases h1 : reachableLoop env (reachable env f) n (env.Node_getNumChildren n) 0 with
      | none => simp [h1] at h
      | some ll =>
        simp only [h1, Option.some.injEq] at h
        subst h
        rcases List.mem_cons.1 hm with hmn | hml
        · subst hmn
          exact ⟨_, h0, Nat.le_refl _⟩
        · obtain ⟨j, c, lj, _, _, _, hr, hmj, hlen⟩ :=
            reachableLoop_mem (reachable_none env f) n _ _ _ h1 hml
          obtain ⟨l', hl', hlen'⟩ := ih (some c) lj hr m hmj
          exact ⟨l', reachable_succ env _ _ _ hl', by
            rw [List.length_cons]; omega⟩

/-- No node is reachable from one of its children: the traversal would not
end. -/
theorem reachable_not_below {env : Env} {f : Nat} {n : Addr} {ll : List Addr}
    (h : reachableLoop env (reachable env f) n (env.Node_getNumChildren n) 0 = some ll) :
    n ∉ ll := by
  intro hn
  obtain ⟨j, c, lj, _, _, _, hr, hmj, hlen⟩ :=
    reachableLoop_mem (reachable_none env f) n _ _ _ h hn
  obtain ⟨l', hl', hlen'⟩ := reachable_of_mem env f (some c) lj hr n hmj
  have h1 : reachable env (f + 1) (some n) = some (n :: ll) := by
    simp [reachable, h]
  have := reachable_unique env hl' h1
  subst this
  rw [List.length_cons] at hlen'
  omega

theorem ancestor_succ (env : Env) :
    ∀ k m, ancestor env (k + 1) m = (ancestor env k m).bind env.Node_getParent := by
  intro k
  induction k with
  | zero =>
    intro m
    simp only [ancestor, Option.some_bind]
    cases hp : env.Node_getParent m <;> rfl
  | succ k ih =>
    intro m
    rw [ancestor]
    cases hp : env.Node_getParent m with
    | none => simp [ancestor, hp]
    | some p =>
      simp only
      rw [ih p]
      simp [ancestor, hp]

/-- An accepted node is the recorded parent of each of its children. -/
theorem NodeOk_parent {env : Env} (hback : BackRefContract env) {n : Addr}
    (hok : NodeOk env n) {j : Nat} (hj : j < env.Node_getNumChildren n) {c : Addr}
    (hc : childAt env n j = some c) : env.Node_getParent c = some n := by
  have hc2 : (env.Node_getChild n j).2 = some c := by
    unfold childAt at hc
    split at hc
    · exact hc
    · simp at hc
  have h1 := ((NodeOk_iff env n).1 hok).2.1
  exact hback n _ ((pointerCheck_true_iff env n _ 0).1 h1 j (Nat.zero_le _) (by omega) c hc2)

/-- In an accepted structure the recorded ancestors of a reachable node lead
to the root of the traversal without leaving the reachable nodes. -/
theorem reachable_ancestor (env : Env) (hback : BackRefContract env) :
    ∀ f x l, reachable env f (some x) = some l → (∀ m ∈ l, NodeOk env m) → ∀ m ∈ l,
      ∃ k, ancestor env k m = some x ∧ ∀ k', k' ≤ k → ∃ a ∈ l, ancestor env k' m = some a := by
  intro f
  induction f with
  | zero => intro x l h; simp [reachable] at h
  | succ f ih =>
    intro x l h hok m hm
    simp only [reachable] at h
    cases h1 : reachableLoop env (reachable env f) x (env.Node_getNumChildren x) 0 with
    | none => simp [h1] at h
    | some ll =>
      simp only [h1, Option.some.injEq] at h
      subst h
      rcases List.mem_cons.1 hm with hmx | hml
      · subst hmx
        refine ⟨0, rfl, ?_⟩
        intro k' hk'
        have : k' = 0 := by omega
        subst this
        exact ⟨m, List.mem_cons_self _ _, rfl⟩
      · obtain ⟨j, c, lj, _, hj, hc, hr, hmj, _⟩ :=
          reachableLoop_mem (reachable_none env f) x _ _ _ h1 hml
        have hsub : ∀ y ∈ lj, y ∈ ll :=
          reachableLoop_sub x _ _ _ h1 j lj (Nat.zero_le _) hj (by rw [hc]; exact hr)
        obtain ⟨k, hk, hchain⟩ := ih c lj hr
          (fun y hy => hok y (List.mem_cons_of_mem _ (hsub y hy))) m hmj
        have hpar : env.Node_getParent c = some x :=
          NodeOk_parent hback (hok x (List.mem_cons_self _ _)) (by omega) hc
        refine ⟨k + 1, ?_, ?_⟩
        · rw [ancestor_succ, hk]
          simpa using hpar
        · intro k' hk'
          by_cases hle : k' ≤ k
          · obtain ⟨a, ha, hanc⟩ := hchain k' hle
            exact ⟨a, List.mem_cons_of_mem _ (hsub a ha), hanc⟩
          · have : k' = k + 1 := by omega
            subst this
            refine ⟨x, List.mem_cons_self _ _, ?_⟩
            rw [ancestor_succ, hk]
            simpa using hpar

theorem childAt_some {env : Env} {n c : Addr} {j : Nat} (hc : childAt env n j = some c) :
    (env.Node_getChild n j).2 = some c := by
  unfold childAt at hc
  split at hc
  · exact hc
  · simp at hc

/-- The nodes listed below the children of an accepted node are listed once,
when this holds below each child. -/
theorem reachableLoop_nodup {env : Env} (hback : BackRefContract env)
    (horder : StrictPathOrder env) {f : Nat} {n : Addr} (hokn : NodeOk env n)
    (hrec : ∀ c lc, reachable env f (some c) = some lc → (∀ m ∈ lc, NodeOk env m) → lc.Nodup) :
    ∀ k i ll, i + k ≤ env.Node_getNumChildren n →
      reachableLoop env (reachable env f) n k i = some ll → (∀ m ∈ ll, NodeOk env m) →
      (∀ j lj, i ≤ j → j < i + k → reachable env f (childAt env n j) = some lj → n ∉ lj) →
      ll.Nodup := by
  intro k
  induction k with
  | zero =>
    intro i ll _ h _ _
    simp only [reachableLoop, Option.some.injEq] at h
    subst h
    exact List.nodup_nil
  | succ k ih =>
    intro i ll hik h hok hnot
    have h0 := h
    simp only [reachableLoop] at h
    cases h1 : reachable env f (childAt env n i) with
    | none => simp [h1] at h
    | some l1 =>
      cases h2 : reachableLoop env (reachable env f) n k (i + 1) with
      | none => simp [h1, h2] at h
      | some l2 =>
        simp only [h1, h2, Option.some.injEq] at h
        subst h
        have hok1 : ∀ m ∈ l1, NodeOk env m := fun m hm => hok m (List.mem_append.2 (Or.inl hm))
        have hok2 : ∀ m ∈ l2, NodeOk env m := fun m hm => hok m (List.mem_append.2 (Or.inr hm))
        have hnd2 : l2.Nodup := ih (i + 1) l2 (by omega) h2 hok2
          (fun j lj h1j h2j hr => hnot j lj (by omega) (by omega) hr)
        cases hci : childAt env n i with
        | none =>
          rw [hci, reachable_none] at h1
          cases h1
          simpa using hnd2
        | some ci =>
          rw [hci] at h1
          have hnd1 : l1.Nodup := hrec ci l1 h1 hok1
          refine List.Nodup.append hnd1 hnd2 ?_
          intro m hm1 hm2
          obtain ⟨j, cj, lj, h1j, h2j, hcj, hrj, hmj, _⟩ :=
            reachableLoop_mem (reachable_none env f) n _ _ _ h2 hm2
          have hsubj : ∀ y ∈ lj, y ∈ l2 :=
            reachableLoop_sub n _ _ _ h2 j lj h1j h2j (by rw [hcj]; exact hrj)
          obtain ⟨a, ha, hchain1⟩ := reachable_ancestor env hback f ci l1 h1 hok1 m hm1
          obtain ⟨b, hb, hchain2⟩ := reachable_ancestor env hback f cj lj hrj
            (fun y hy => hok2 y (hsubj y hy)) m hmj
          have hpi : env.Node_getParent ci = some n := NodeOk_parent hback hokn (by omega) hci
          have hpj : env.Node_getParent cj = some n := NodeOk_parent hback hokn (by omega) hcj
          rcases Nat.lt_trichotomy a b with hlt | heq | hgt
          · obtain ⟨y, hy, hanc⟩ := hchain2 (a + 1) (by omega)
            rw [ancestor_succ, ha] at hanc
            simp only [Option.some_bind, hpi, Option.some.injEq] at hanc
            subst hanc
            exact hnot j lj (by omega) (by omega) (by rw [hcj]; exact hrj) hy
          · subst heq
            rw [ha] at hb
            cases hb
            obtain ⟨d, rfl⟩ : ∃ d, j = i + d + 1 := ⟨j - i - 1, by omega⟩
            have := NodeOk_ascending horder hokn d i ci ci (by omega) (childAt_some hci)
              (childAt_some hcj)
            rw [horder.1] at this
            exact absurd this (by decide)
          · obtain ⟨y, hy, hanc⟩ := hchain1 (b + 1) (by omega)
            rw [ancestor_succ, hb] at hanc
            simp only [Option.some_bind, hpj, Option.some.injEq] at hanc
            subst hanc
            exact hnot i l1 (Nat.le_refl _) (by omega) (by rw [hci]; exact h1) hy

/-- When `Node_compare` and `Path_comparePath` meet their contracts, an
acyclic structure all of whose nodes are accepted by the single-node check is
a tree: no node is reached twice by child traversal. -/
theorem accepted_nodup (env : Env) (hback : BackRefContract env)
    (horder : StrictPathOrder env) :
    ∀ f x l, reachable env f x = some l → (∀ m ∈ l, NodeOk env m) → l.Nodup := by
  intro f
  induction f with
  | zero =>
    intro x l h _
    cases x with
    | none =>
      simp only [reachable, Option.some.injEq] at h
      subst h
      exact List.nodup_nil
    | some n => simp [reachable] at h
  | succ f ih =>
    intro x l h hok
    cases x with
    | none =>
      simp only [reachable, Option.some.injEq] at h
      subst h
      exact List.nodup_nil
    | some n =>
      simp only [reachable] at h
      cases h1 : reachableLoop env (reachable env f) n (env.Node_getNumChildren n) 0 with
      | none => simp [h1] at h
      | some ll =>
        simp only [h1, Option.some.injEq] at h
        subst h
        have hnot : n ∉ ll := reachable_not_below h1
        refine List.nodup_cons.2 ⟨hnot, ?_⟩
        exact reachableLoop_nodup hback horder (hok n (List.mem_cons_self _ _))
          (fun c lc hc hokc => ih (some c) lc hc hokc) _ 0 ll (by omega) h1
          (fun m hm => hok m (List.mem_cons_of_mem _ hm))
          (fun j lj _ hj hr hn =>
            hnot (reachableLoop_sub n _ _ _ h1 j lj (Nat.zero_le _) hj hr n hn))

/-- When `Node_compare` and `Path_comparePath` meet their contracts, whatever
`CheckerDT_isValid` accepts is a tree: the traversal from the root ends, every
node it lists is accepted by the single-node check, and none is listed
twice. -/
theorem isValid_true_tree (env : Env) (hback : BackRefContract env)
    (horder : StrictPathOrder env) {fuel : Nat} {b : Bool} {oNRoot : Node_T} {ulCount : Nat}
    (h : returned (CheckerDT_isValid env fuel b oNRoot ulCount) = some true) :
    ∃ l, reachable env fuel oNRoot = some l ∧ l.Nodup ∧ ∀ m ∈ l, NodeOk env m := by
  obtain ⟨err, he⟩ := isValid_true_inv h
  obtain ⟨l, hl, _, _, hP⟩ := treeCheck_sound env fuel oNRoot 0 ulCount err he SIZE_MOD_pos
  exact ⟨l, hl, accepted_nodup env hback horder fuel oNRoot l hl (fun m hm => (hP m hm).1),
    fun m hm => (hP m hm).1⟩

/-! ## The empty traversal, the path of depth 0 -/

/-- C15. On a NULL root the traversal returns TRUE, prints nothing and leaves
the counter at the value `c` it started with, whatever `c` (and whatever the
fuel). -/
theorem C15_empty_traversal (env : Env) (fuel c : Nat) :
    CheckerDT_treeCheck env fuel none c = some (true, c, []) := by
  cases fuel <;> rfl

theorem sharedPrefixDepth_le (a b : Path_T) :
    Path_getSharedPrefixDepth a b ≤ Path_getDepth a ∧
    Path_getSharedPrefixDepth a b ≤ Path_getDepth b := by
  induction a generalizing b with
  | nil => simp [Path_getSharedPrefixDepth, Path_getDepth]
  | cons x xs ih =>
    cases b with
    | nil => simp [Path_getSharedPrefixDepth, Path_getDepth]
    | cons y ys =>
      simp only [Path_getSharedPrefixDepth, Path_getDepth, List.length_cons]
      have := ih ys
      simp only [Path_getDepth] at this
      split
      · omega
      · omega

/-- C16. A node with a parent and a path of depth 0 is refused by the
single-node check, with the message on parent and child paths:
`Path_getDepth(..) - 1` is `2 ^ 64 - 1` in `size_t`, and the depth of the
shared prefix, at most the depth of either path, is 0 there. -/
theorem C16_depth_zero_refused (env : Env) (n p : Addr)
    (hparent : env.Node_getParent n = some p)
    (hdepth : Path_getDepth (env.Node_getPath n) = 0) :
    CheckerDT_Node_isValid env (some n)
      = some (false, [Diag.parentChildPaths (env.Node_getPath p) (env.Node_getPath n)]) ∧
    sizeSub (Path_getDepth (env.Node_getPath n)) 1 = 2 ^ 64 - 1 ∧
    Path_getSharedPrefixDepth (env.Node_getPath n) (env.Node_getPath p)
      ≤ Path_getDepth (env.Node_getPath n) ∧
    Path_getSharedPrefixDepth (env.Node_getPath n) (env.Node_getPath p)
      ≤ Path_getDepth (env.Node_getPath p) := by
  have hb := sharedPrefixDepth_le (env.Node_getPath n) (env.Node_getPath p)
  have hsub : sizeSub (Path_getDepth (env.Node_getPath n)) 1 = 2 ^ 64 - 1 := by
    rw [hdepth]; decide
  refine ⟨?_, hsub, hb.1, hb.2⟩
  have hbad : parentPathBad env n = true := by
    unfold parentPathBad
    simp only [hparent, decide_eq_true_eq]
    rw [hsub]
    have := hb.1
    rw [hdepth] at this
    omega
  simp [CheckerDT_Node_isValid, hbad, parentPath, hparent]

/-- C16 at the node of empty path under the parent "/a": refused. -/
theorem C16_depth_zero_refused_witness :
    CheckerDT_Node_isValid (tableEnv treeDepthZero) (some 2)
      = some (false, [Diag.parentChildPaths ["a"] []]) :=
  (C16_depth_zero_refused (tableEnv treeDepthZero) 2 1 (by decide) (by decide)).1

/-! ## Locality of the single-node check -/

/-- Under its contract, `Node_compare` of a node and a recorded parent is 0
exactly when the recorded parent is that node. -/
theorem compare_zero_iff {env : Env} (hspec : NodeCompareSpec env) (hback : BackRefContract env)
    (n : Addr) (q : Node_T) : env.Node_compare (some n) q = 0 ↔ q = some n := by
  constructor
  · exact hback n q
  · intro h
    subst h
    exact (hspec n n).2 rfl

theorem tableEnv_backref (tbl : Addr → NodeRec) : BackRefContract (tableEnv tbl) := by
  intro n q h
  by_contra hne
  have hne' : ¬ some n = q := fun h' => hne h'.symm
  simp [tableEnv, hne'] at h

theorem pointerCheck_match {env1 env2 : Env} {n1 n2 : Addr}
    (hspec1 : NodeCompareSpec env1) (hback1 : BackRefContract env1)
    (hspec2 : NodeCompareSpec env2) (hback2 : BackRefContract env2) :
    ∀ k i, (∀ j, i ≤ j → j < i + k → ChildMatch env1 env2 n1 n2 j) →
      pointerCheck env1 n1 k i = pointerCheck env2 n2 k i := by
  intro k
  induction k with
  | zero => intro i _; rfl
  | succ k ih =>
    intro i h
    have hi := h i (Nat.le_refl _) (by omega)
    have hrest := ih (i + 1) (fun j h1 h2 => h j (by omega) (by omega))
    unfold ChildMatch at hi
    simp only [pointerCheck]
    cases h1 : (env1.Node_getChild n1 i).2 with
    | none =>
      cases h2 : (env2.Node_getChild n2 i).2 with
      | none => simpa using hrest
      | some c2 => simp [h1, h2] at hi
    | some c1 =>
      cases h2 : (env2.Node_getChild n2 i).2 with
      | none => simp [h1, h2] at hi
      | some c2 =>
        simp only [h1, h2] at hi
        have e1 := compare_zero_iff hspec1 hback1 n1 (env1.Node_getParent c1)
        have e2 := compare_zero_iff hspec2 hback2 n2 (env2.Node_getParent c2)
        by_cases hz : env1.Node_compare (some n1) (env1.Node_getParent c1) = 0
        · have hz2 : env2.Node_compare (some n2) (env2.Node_getParent c2) = 0 :=
            e2.2 (hi.2.1 (e1.1 hz))
          simp [hz, hz2, hrest]
        · have hz2 : ¬ env2.Node_compare (some n2) (env2.Node_getParent c2) = 0 :=
            fun h' => hz (e1.2 (hi.2.2 (e2.1 h')))
          simp [hz, hz2]

theorem orderCheck_match {env1 env2 : Env} {n1 n2 : Addr}
    (hcompare : env1.Path_comparePath = env2.Path_comparePath) :
    ∀ k i, (∀ j, i ≤ j → j ≤ i + k → ChildMatch env1 env2 n1 n2 j) →
      orderCheck env1 n1 k i = orderCheck env2 n2 k i := by
  intro k
  induction k with
  | zero => intro i _; rfl
  | succ k ih =>
    intro i h
    have hi := h i (Nat.le_refl _) (by omega)
    have hi1 := h (i + 1) (by omega) (by omega)
    have hrest := ih (i + 1) (fun j h1 h2 => h j (by omega) (by omega))
    unfold ChildMatch at hi hi1
    simp only [orderCheck]
    cases h1 : (env1.Node_getChild n1 i).2 with
    | none =>
      cases h2 : (env2.Node_getChild n2 i).2 with
      | none => rfl
      | some c2 => simp [h1, h2] at hi
    | some c1 =>
      cases h2 : (env2.Node_getChild n2 i).2 with
      | none => simp [h1, h2] at hi
      | some c2 =>
        simp only [h1, h2] at hi
        cases h3 : (env1.Node_getChild n1 (i + 1)).2 with
        | none =>
          cases h4 : (env2.Node_getChild n2 (i + 1)).2 with
          | none => rfl
          | some d2 => simp [h3, h4] at hi1
        | some d1 =>
          cases h4 : (env2.Node_getChild n2 (i + 1)).2 with
          | none => simp [h3, h4] at hi1
          | some d2 =>
            simp only [h3, h4] at hi1
            simp only [hi.1, hi1.1, hcompare, hrest]

theorem duplicateCheck_match {env1 env2 : Env} {n1 n2 : Addr}
    (hcompare : env1.Path_comparePath = env2.Path_comparePath) :
    ∀ k i, (∀ j, i ≤ j → j ≤ i + k → ChildMatch env1 env2 n1 n2 j) →
      duplicateCheck env1 n1 k i = duplicateCheck env2 n2 k i := by
  intro k
  induction k with
  | zero => intro i _; rfl
  | succ k ih =>
    intro i h
    have hi := h i (Nat.le_refl _) (by omega)
    have hi1 := h (i + 1) (by omega) (by omega)
    have hrest := ih (i + 1) (fun j h1 h2 => h j (by omega) (by omega))
    unfold ChildMatch at hi hi1
    simp only [duplicateCheck]
    cases h1 : (env1.Node_getChild n1 i).2 with
    | none =>
      cases h2 : (env2.Node_getChild n2 i).2 with
      | none => rfl
      | some c2 => simp [h1, h2] at hi
    | some c1 =>
      cases h2 : (env2.Node_getChild n2 i).2 with
      | none => simp [h1, h2] at hi
      | some c2 =>
        simp only [h1, h2] at hi
        cases h3 : (env1.Node_getChild n1 (i + 1)).2 with
        | none =>
          cases h4 : (env2.Node_getChild n2 (i + 1)).2 with
          | none => rfl
          | some d2 => simp [h3, h4] at hi1
        | some d1 =>
          cases h4 : (env2.Node_getChild n2 (i + 1)).2 with
          | none => simp [h3, h4] at hi1
          | some d2 =>
            simp only [h3, h4] at hi1
            simp only [hi.1, hi1.1, hcompare, hrest]

/-- C14 fails as stated. In `treeTwin`, where `Node_compare` is 0 on the same
node only, the nodes 1 and 7 agree on their own path, have no parent, have one
child each, and this child is the same node 2: same path, same recorded
parent, node 1.  The single-node check accepts node 1 and refuses node 7
("Conflicting parent/child relationship"). -/
theorem C14_counterexample :
    NodeCompareSpec (tableEnv treeTwin) ∧
    (tableEnv treeTwin).Node_getPath 1 = (tableEnv treeTwin).Node_getPath 7 ∧
    (tableEnv treeTwin).Node_getParent 1 = none ∧
    (tableEnv treeTwin).Node_getParent 7 = none ∧
    (tableEnv treeTwin).Node_getNumChildren 1 = 1 ∧
    (tableEnv treeTwin).Node_getNumChildren 7 = 1 ∧
    (tableEnv treeTwin).Node_getChild 1 0 = (0, some 2) ∧
    (tableEnv treeTwin).Node_getChild 7 0 = (0, some 2) ∧
    (tableEnv treeTwin).Node_getParent 2 = some 1 ∧
    CheckerDT_Node_isValid (tableEnv treeTwin) (some 1) = some (true, []) ∧
    CheckerDT_Node_isValid (tableEnv treeTwin) (some 7)
      = some (false, [Diag.conflictingParent]) :=
  ⟨tableEnv_compare_spec treeTwin, by decide⟩

/-- C14, amended. With `Node_compare` 0 exactly when the recorded parent is
the node: two nodes (of one tree or of two) get the same answer from the
single-node check, boolean and message, when they agree on their own path, on
the presence and the path of their parent, on their number of children and,
child by child, on the presence and the path of the child and on whether the
recorded parent of the child is the node that lists it; the comparison of
paths being the same.  Nothing is assumed on the children of the children or
below. -/
theorem C14_node_local (env1 env2 : Env) (n1 n2 : Addr)
    (hspec1 : NodeCompareSpec env1) (hback1 : BackRefContract env1)
    (hspec2 : NodeCompareSpec env2) (hback2 : BackRefContract env2)
    (hpath : env1.Node_getPath n1 = env2.Node_getPath n2)
    (hparent : (env1.Node_getParent n1).map env1.Node_getPath
      = (env2.Node_getParent n2).map env2.Node_getPath)
    (hnum : env1.Node_getNumChildren n1 = env2.Node_getNumChildren n2)
    (hcompare : env1.Path_comparePath = env2.Path_comparePath)
    (hchild : ∀ i < env1.Node_getNumChildren n1, ChildMatch env1 env2 n1 n2 i) :
    CheckerDT_Node_isValid env1 (some n1) = CheckerDT_Node_isValid env2 (some n2) := by
  have hbad : parentPathBad env1 n1 = parentPathBad env2 n2 := by
    unfold parentPathBad
    cases h1 : env1.Node_getParent n1 with
    | none =>
      cases h2 : env2.Node_getParent n2 with
      | none => rfl
      | some p2 => simp [h1, h2] at hparent
    | some p1 =>
      cases h2 : env2.Node_getParent n2 with
      | none => simp [h1, h2] at hparent
      | some p2 =>
        simp only [h1, h2, Option.map_some', Option.some.injEq] at hparent
        simp only [hpath, hparent]
  have hpp : parentPath env1 n1 = parentPath env2 n2 := by
    unfold parentPath
    cases h1 : env1.Node_getParent n1 with
    | none =>
      cases h2 : env2.Node_getParent n2 with
      | none => rfl
      | some p2 => simp [h1, h2] at hparent
    | some p1 =>
      cases h2 : env2.Node_getParent n2 with
      | none => simp [h1, h2] at hparent
      | some p2 =>
        simp only [h1, h2, Option.map_some', Option.some.injEq] at hparent
        exact hparent
  have hptr : pointerCheck env1 n1 (env1.Node_getNumChildren n1) 0
      = pointerCheck env2 n2 (env1.Node_getNumChildren n1) 0 :=
    pointerCheck_match hspec1 hback1 hspec2 hback2 _ 0 (fun j _ h2 => hchild j (by omega))
  have hord : env1.Node_getNumChildren n1 > 1 →
      orderCheck env1 n1 (env1.Node_getNumChildren n1 - 1) 0
        = orderCheck env2 n2 (env1.Node_getNumChildren n1 - 1) 0 :=
    fun hk => orderCheck_match hcompare _ 0 (fun j _ h2 => hchild j (by omega))
  have hdup : env1.Node_getNumChildren n1 > 1 →
      duplicateCheck env1 n1 (env1.Node_getNumChildren n1 - 1) 0
        = duplicateCheck env2 n2 (env1.Node_getNumChildren n1 - 1) 0 :=
    fun hk => duplicateCheck_match hcompare _ 0 (fun j _ h2 => hchild j (by omega))
  unfold CheckerDT_Node_isValid
  simp only [← hnum, ← hbad, ← hpp, ← hpath, ← hptr]
  by_cases hk : env1.Node_getNumChildren n1 > 1
  · simp only [hk, if_true, ← hord hk, ← hdup hk]
  · simp only [hk, if_false]

/-- C14 at two pairs of nodes: the node "/a" of `treeABC` and the node "/a"
of `treeABCDeep`, two trees that differ below the child "/a/b" only; and the
two distinct nodes "/a" of `treeSideBySide`, whose children are distinct
nodes with different descendants.  The same answer within each pair. -/
theorem C14_node_local_witness :
    CheckerDT_Node_isValid (tableEnv treeABC) (some 1)
      = CheckerDT_Node_isValid (tableEnv treeABCDeep) (some 1) ∧
    CheckerDT_Node_isValid (tableEnv treeSideBySide) (some 1)
      = CheckerDT_Node_isValid (tableEnv treeSideBySide) (some 7) :=
  ⟨C14_node_local (tableEnv treeABC) (tableEnv treeABCDeep) 1 1
    (tableEnv_compare_spec treeABC) (tableEnv_backref treeABC)
    (tableEnv_compare_spec treeABCDeep) (tableEnv_backref treeABCDeep)
    (by decide) (by decide) (by decide) rfl (by decide),
   C14_node_local (tableEnv treeSideBySide) (tableEnv treeSideBySide) 1 7
    (tableEnv_compare_spec treeSideBySide) (tableEnv_backref treeSideBySide)
    (tableEnv_compare_spec treeSideBySide) (tableEnv_backref treeSideBySide)
    (by decide) (by decide) (by decide) rfl (by decide)⟩

/-! ## The traversal stops at the first failure -/

/-- The loop over the children stops in the child below which the first
refused node lies, with the counter advanced by the nodes listed before that
node and by the node itself. -/
theorem treeCheckLoop_failfast {env : Env}
    {recur : Node_T → Nat → Option (Bool × Nat × List Diag)}
    {rrec : Node_T → Option (List Addr)} {P : Addr → Prop} {Q : Addr → List Diag → Prop}
    (hok : ∀ x l c, rrec x = some l → (∀ m ∈ l, P m) → c < SIZE_MOD →
      recur x c = some (true, (c + l.length) % SIZE_MOD, []))
    (hfail : ∀ x l pre b post c e, rrec x = some l → l = pre ++ b :: post →
      (∀ m ∈ pre, P m) → Q b e →
      recur x c = some (false, (c + (pre.length + 1)) % SIZE_MOD, e))
    (n : Addr) :
    ∀ k i ll pre b post c e, reachableLoop env rrec n k i = some ll → ll = pre ++ b :: post →
      (∀ m ∈ pre, P m) → Q b e →
      (∀ j, i ≤ j → j < i + k → (env.Node_getChild n j).1 = env.SUCCESS) → c < SIZE_MOD →
      treeCheckLoop env recur n k i c = some (false, (c + (pre.length + 1)) % SIZE_MOD, e) := by
  intro k
  induction k with
  | zero =>
    intro i ll pre b post c e h hsplit _ _ _ _
    simp only [reachableLoop, Option.some.injEq] at h
    subst h
    simp at hsplit
  | succ k ih =>
    intro i ll pre b post c e h hsplit hP hQ hst hc
    have hs : (env.Node_getChild n i).1 = env.SUCCESS := hst i (Nat.le_refl _) (by omega)
    simp only [reachableLoop, childAt_of_status hs] at h
    cases h1 : rrec (env.Node_getChild n i).2 with
    | none => simp [h1] at h
    | some l1 =>
      cases h2 : reachableLoop env rrec n k (i + 1) with
      | none => simp [h1, h2] at h
      | some l2 =>
        simp only [h1, h2, Option.some.injEq] at h
        subst h
        have later : ∀ a', pre = l1 ++ a' → l2 = a' ++ b :: post →
            treeCheckLoop env recur n (k + 1) i c
              = some (false, (c + (pre.length + 1)) % SIZE_MOD, e) := by
          intro a' hpre hl2
          have hP1 : ∀ m ∈ l1, P m := fun m hm => hP m (by rw [hpre]; simp [hm])
          have hP2 : ∀ m ∈ a', P m := fun m hm => hP m (by rw [hpre]; simp [hm])
          have e1 := hok _ _ c h1 hP1 hc
          have e2 := ih (i + 1) l2 a' b post ((c + l1.length) % SIZE_MOD) e h2 hl2 hP2 hQ
            (fun j h1j h2j => hst j (by omega) (by omega)) (Nat.mod_lt _ SIZE_MOD_pos)
          simp only [treeCheckLoop, hs, ne_eq, not_true_eq_false, if_false, e1, e2,
            List.nil_append, counter_chain, hpre, List.length_append]
          simp [Nat.add_assoc]
        rcases List.append_eq_append_iff.1 hsplit with ⟨a', hpre, hl2⟩ | ⟨c', hl1, hrest⟩
        · exact later a' hpre hl2
        · cases c' with
          | nil =>
            simp only [List.append_nil, List.nil_append] at hl1 hrest
            exact later [] (by simp [hl1]) (by simp [hrest])
          | cons x xs =>
            simp only [List.cons_append, List.cons.injEq] at hrest
            obtain ⟨hx, _⟩ := hrest
            subst hx
            have e1 := hfail _ l1 pre b xs c e h1 hl1 hP hQ
            simp [treeCheckLoop, hs, e1]

/-- The traversal stops at the first node the single-node check refuses, when
the nodes before it are accepted and their enumerations succeed: it returns
FALSE with the message of that node, and the counter has advanced by the
number of nodes up to that node. -/
theorem treeCheck_failfast (env : Env) :
    ∀ fuel x l pre b post c e, reachable env fuel x = some l → l = pre ++ b :: post →
      (∀ m ∈ pre, NodeOk env m ∧ StatusOk env m) →
      CheckerDT_Node_isValid env (some b) = some (false, e) →
      CheckerDT_treeCheck env fuel x c
        = some (false, (c + (pre.length + 1)) % SIZE_MOD, e) := by
  intro fuel
  induction fuel with
  | zero =>
    intro x l pre b post c e h hsplit _ _
    cases x with
    | none =>
      simp only [reachable, Option.some.injEq] at h
      subst h
      simp at hsplit
    | some n => simp [reachable] at h
  | succ f ih =>
    intro x l pre b post c e h hsplit hP hQ
    cases x with
    | none =>
      simp only [reachable, Option.some.injEq] at h
      subst h
      simp at hsplit
    | some n =>
      simp only [reachable] at h
      cases h1 : reachableLoop env (reachable env f) n (env.Node_getNumChildren n) 0 with
      | none => simp [h1] at h
      | some ll =>
        simp only [h1, Option.some.injEq] at h
        subst h
        cases pre with
        | nil =>
          simp only [List.nil_append, List.cons.injEq] at hsplit
          obtain ⟨hn, _⟩ := hsplit
          subst hn
          simp [CheckerDT_treeCheck, hQ]
        | cons p ps =>
          simp only [List.cons_append, List.cons.injEq] at hsplit
          obtain ⟨hn, hll⟩ := hsplit
          subst hn
          have hn := hP n (List.mem_cons_self _ _)
          have hokn : CheckerDT_Node_isValid env (some n) = some (true, []) := hn.1
          have e1 := treeCheckLoop_failfast
            (P := fun m => NodeOk env m ∧ StatusOk env m)
            (Q := fun b e => CheckerDT_Node_isValid env (some b) = some (false, e))
            (treeCheck_complete env f) (fun x l pre b post c e h1 h2 h3 h4 =>
              ih x l pre b post c e h1 h2 h3 h4) n _ 0 ll ps b post ((c + 1) % SIZE_MOD) e h1
            hll (fun m hm => hP m (List.mem_cons_of_mem _ hm)) hQ
            (fun j _ h2j => hn.2 j (by omega)) (Nat.mod_lt _ SIZE_MOD_pos)
          simp only [CheckerDT_treeCheck, hokn, e1, List.nil_append, counter_step,
            List.length_cons]

/-- C13 fails as stated. In `envShortChild` the nodes in pre-order are 1, 2,
3; nodes 1 and 2 pass the single-node check and node 3, at position 3, is the
first to fail it; but the traversal started at counter 0 stops at node 2,
whose child enumeration fails, with the counter at 2 and not at 3.  And from
the counter `2 ^ 64 - 1` a root that fails the check (position 1) leaves the
counter at 0. -/
theorem C13_counterexample :
    reachable envShortChild 2 (some 1) = some [1, 2, 3] ∧
    CheckerDT_Node_isValid envShortChild (some 1) = some (true, []) ∧
    CheckerDT_Node_isValid envShortChild (some 2) = some (true, []) ∧
    returned (CheckerDT_Node_isValid envShortChild (some 3)) = some false ∧
    CheckerDT_treeCheck envShortChild 2 (some 1) 0 = some (false, 2, [Diag.fewerChildren]) ∧
    (2 : Nat) ≠ 0 + 3 ∧
    returned (CheckerDT_Node_isValid (tableEnv treeACB) (some 1)) = some false ∧
    CheckerDT_treeCheck (tableEnv treeACB) 2 (some 1) (2 ^ 64 - 1)
      = some (false, 0, [Diag.lexOrder]) ∧
    (0 : Nat) ≠ (2 ^ 64 - 1) + 1 := by
  decide

/-- C13, amended. On an acyclic tree whose nodes in pre-order are `pre`, then
`n`, then `post`, where the nodes of `pre` pass the single-node check and
their child enumerations return SUCCESS, and `n` fails the single-node check:
the traversal started with the counter `c` returns FALSE with the message of
`n` and leaves the counter at `c + k` modulo `2 ^ 64`, `k` being the position
of `n` (the length of `pre` plus 1); the nodes of `post` are neither checked
nor counted. -/
theorem C13_failfast (env : Env) (fuel₀ : Nat) (oNRoot : Node_T) (pre : List Addr) (n : Addr)
    (post : List Addr)
    (hacyclic : reachable env fuel₀ oNRoot = some (pre ++ n :: post))
    (hpass : ∀ m ∈ pre, NodeOk env m)
    (henum : ∀ m ∈ pre, StatusOk env m)
    (hfail : returned (CheckerDT_Node_isValid env (some n)) = some false)
    (c fuel : Nat) (hfuel : fuel₀ ≤ fuel) :
    ∃ e, CheckerDT_Node_isValid env (some n) = some (false, e) ∧
      CheckerDT_treeCheck env fuel oNRoot c
        = some (false, (c + (pre.length + 1)) % SIZE_MOD, e) := by
  cases h1 : CheckerDT_Node_isValid env (some n) with
  | none => simp [h1, returned] at hfail
  | some r =>
    obtain ⟨b, e⟩ := r
    simp only [h1, returned, Option.map_some', Option.some.injEq] at hfail
    subst hfail
    exact ⟨e, rfl, treeCheck_failfast env fuel oNRoot _ pre n post c e
      (reachable_mono env hfuel hacyclic) rfl (fun m hm => ⟨hpass m hm, henum m hm⟩) h1⟩

/-- C13 at the tree "/a" with the children "/a/b", "/a/c/x", "/a/d": the
third node in pre-order is the first to fail, and the traversal started at 0
stops there with the counter at 3, the fourth node uncounted. -/
theorem C13_failfast_witness :
    ∃ e, CheckerDT_Node_isValid (tableEnv treeLateFail) (some 3) = some (false, e) ∧
      CheckerDT_treeCheck (tableEnv treeLateFail) 2 (some 1) 0
        = some (false, 3, e) :=
  C13_failfast (tableEnv treeLateFail) 2 (some 1) [1, 2] 3 [4] (by decide) (by decide)
    (by decide) (by decide) 0 2 (Nat.le_refl 2)

/-! ## Enumeration failures -/

/-- With the single-node check defined on every reachable node, a tree that
holds a node one of whose child enumerations fails is refused. -/
theorem isValid_false_of_bad_status {env : Env} {fuel₀ : Nat} {oNRoot : Node_T} {l : List Addr}
    (hl : reachable env fuel₀ oNRoot = some l)
    (hdef : ∀ m ∈ l, (CheckerDT_Node_isValid env (some m)).isSome)
    {n : Addr} (hn : n ∈ l) (hbad : ¬ StatusOk env n)
    (b : Bool) (ulCount : Nat) {fuel : Nat} (hf : fuel₀ ≤ fuel) :
    returned (CheckerDT_isValid env fuel b oNRoot ulCount) = some false := by
  have hl' := reachable_mono env hf hl
  have ht := treeCheck_total env fuel oNRoot l 0 hl' hdef
  cases h1 : CheckerDT_treeCheck env fuel oNRoot 0 with
  | none => simp [h1] at ht
  | some r =>
    obtain ⟨res, c, err⟩ := r
    cases res with
    | false => exact isValid_false_of_treeCheck h1 b ulCount
    | true =>
      obtain ⟨l2, hl2, _, _, hP⟩ := treeCheck_sound env fuel oNRoot 0 c err h1 SIZE_MOD_pos
      have : l = l2 := reachable_unique env hl' hl2
      subst this
      exact absurd (hP n hn).2 hbad

/-- C12 fails as stated. Node 2 of `envShortChild` reports one child and
`Node_getChild` fails on the identifier 0, yet the single-node check accepts
the node and prints nothing: it never reads the status. -/
theorem C12_counterexample :
    envShortChild.Node_getNumChildren 2 = 1 ∧
    (envShortChild.Node_getChild 2 0).1 ≠ envShortChild.SUCCESS ∧
    CheckerDT_Node_isValid envShortChild (some 2) = some (true, []) := by
  decide

/-- C12, amended. When `Node_getChild` reports a failure status on an
identifier below `Node_getNumChildren` of a node `n`, the traversal of any
acyclic tree in which `n` is reachable returns FALSE, and so does
`CheckerDT_isValid`, whatever the flag and the count (given the fuel that
lists the tree, a counter that is a `size_t` value and a single-node check
that dereferences no NULL child). -/
theorem C12_enumeration_failure (env : Env) (fuel₀ : Nat) (oNRoot : Node_T) (l : List Addr)
    (hacyclic : reachable env fuel₀ oNRoot = some l)
    (hdef : ∀ m ∈ l, (CheckerDT_Node_isValid env (some m)).isSome)
    (n : Addr) (hn : n ∈ l) (i : Nat) (hi : i < env.Node_getNumChildren n)
    (hstatus : (env.Node_getChild n i).1 ≠ env.SUCCESS)
    (fuel : Nat) (hfuel : fuel₀ ≤ fuel) :
    (∀ c, c < SIZE_MOD → ∃ c' e, CheckerDT_treeCheck env fuel oNRoot c = some (false, c', e)) ∧
    ∀ (bIsInitialized : Bool) (ulCount : Nat),
      returned (CheckerDT_isValid env fuel bIsInitialized oNRoot ulCount) = some false := by
  have hbad : ¬ StatusOk env n := fun h => hstatus (h i hi)
  refine ⟨?_, fun b ulCount => isValid_false_of_bad_status hacyclic hdef hn hbad b ulCount hfuel⟩
  intro c hc
  have hl' := reachable_mono env hfuel hacyclic
  have ht := treeCheck_total env fuel oNRoot l c hl' hdef
  cases h1 : CheckerDT_treeCheck env fuel oNRoot c with
  | none => simp [h1] at ht
  | some r =>
    obtain ⟨res, c', err⟩ := r
    cases res with
    | false => exact ⟨c', err, rfl⟩
    | true =>
      obtain ⟨l2, hl2, _, _, hP⟩ := treeCheck_sound env fuel oNRoot c c' err h1 hc
      have : l = l2 := reachable_unique env hl' hl2
      subst this
      exact absurd (hP n hn).2 hbad

/-- C12 at `envShortChild`, where the enumeration of node 2 fails: the
traversal from the root "/a" returns FALSE and the tree is refused. -/
theorem C12_enumeration_failure_witness :
    (∃ c' e, CheckerDT_treeCheck envShortChild 2 (some 1) 0 = some (false, c', e)) ∧
    returned (CheckerDT_isValid envShortChild 2 true (some 1) 3) = some false :=
  ⟨(C12_enumeration_failure envShortChild 2 (some 1) [1, 2, 3] (by decide) (by decide) 2
      (by decide) 0 (by decide) (by decide) 2 (Nat.le_refl 2)).1 0 (by decide),
   (C12_enumeration_failure envShortChild 2 (some 1) [1, 2, 3] (by decide) (by decide) 2
      (by decide) 0 (by decide) (by decide) 2 (Nat.le_refl 2)).2 true 3⟩

/-! ## The report on the count -/

/-- When the tree-level tests pass, the run is the traversal followed by the
comparison of the counter. -/
theorem isValid_of_bookkeeping {env : Env} {b : Bool} {oNRoot : Node_T} {ulCount : Nat}
    (h : BookkeepingOk env b oNRoot ulCount) (fuel : Nat) :
    CheckerDT_isValid env fuel b oNRoot ulCount = isValidTraverse env fuel oNRoot ulCount := by
  obtain ⟨h1, h2⟩ := h
  unfold CheckerDT_isValid
  cases b with
  | false =>
    obtain ⟨hc, hr⟩ := h1 rfl
    simp [hc, hr]
  | true =>
    obtain ⟨hiff, hpar⟩ := h2 rfl
    cases oNRoot with
    | none =>
      have hc : ulCount = 0 := hiff.2 rfl
      simp [hc]
    | some r =>
      have hc : ulCount ≠ 0 := fun h0 => by simpa using hiff.1 h0
      have hp : env.Node_getParent r = none := hpar r rfl
      simp [hc, rootParent, hp]

/-- C11 fails as stated. The tree "/a" with "/a/c" stored before "/a/b" passes
the tree-level tests with the counts 3 and 1 and holds 3 reachable nodes; the
traversal stops at the root, the counter at 1.  With the claimed count 3, the
number of reachable nodes, "Wrong number of nodes" is printed; with the
claimed count 1 it is not. -/
theorem C11_counterexample :
    BookkeepingOk (tableEnv treeACB) true (some 1) 3 ∧
    BookkeepingOk (tableEnv treeACB) true (some 1) 1 ∧
    reachable (tableEnv treeACB) 2 (some 1) = some [1, 3, 2] ∧
    CheckerDT_isValid (tableEnv treeACB) 2 true (some 1) 3
      = some (false, [Diag.lexOrder, Diag.wrongCount]) ∧
    CheckerDT_isValid (tableEnv treeACB) 2 true (some 1) 1 = some (false, [Diag.lexOrder]) := by
  decide

theorem Node_isValid_no_wrongCount {env : Env} {x : Node_T} {b : Bool} {e : List Diag}
    (h : CheckerDT_Node_isValid env x = some (b, e)) : Diag.wrongCount ∉ e := by
  unfold CheckerDT_Node_isValid at h
  cases x with
  | none =>
    simp only [Option.some.injEq, Prod.mk.injEq] at h
    rw [← h.2]
    decide
  | some n =>
    simp only at h
    split at h
    · simp only [Option.some.injEq, Prod.mk.injEq] at h
      rw [← h.2]
      simp
    · split at h
      · simp only [Option.some.injEq, Prod.mk.injEq] at h
        rw [← h.2]
        decide
      · split at h
        · simp at h
        · simp only [Option.some.injEq, Prod.mk.injEq] at h
          rw [← h.2]
          decide
        · split at h
          · simp at h
          · simp only [Option.some.injEq, Prod.mk.injEq] at h
            rw [← h.2]
            decide
          · simp only [Option.some.injEq, Prod.mk.injEq] at h
            rw [← h.2]
            simp

theorem treeCheckLoop_no_wrongCount {env : Env}
    {recur : Node_T → Nat → Option (Bool × Nat × List Diag)}
    (hrec : ∀ x c b c' e, recur x c = some (b, c', e) → Diag.wrongCount ∉ e) (n : Addr) :
    ∀ k i c b c' e, treeCheckLoop env recur n k i c = some (b, c', e) →
      Diag.wrongCount ∉ e := by
  intro k
  induction k with
  | zero =>
    intro i c b c' e h
    simp only [treeCheckLoop, Option.some.injEq, Prod.mk.injEq] at h
    rw [← h.2.2]
    simp
  | succ k ih =>
    intro i c b c' e h
    simp only [treeCheckLoop] at h
    split at h
    · simp only [Option.some.injEq, Prod.mk.injEq] at h
      rw [← h.2.2]
      decide
    · cases h1 : recur (env.Node_getChild n i).2 c with
      | none => simp [h1] at h
      | some r1 =>
        obtain ⟨b1, c1, e1⟩ := r1
        have hn1 := hrec _ _ _ _ _ h1
        cases b1 with
        | false =>
          simp only [h1, Option.some.injEq, Prod.mk.injEq] at h
          rw [← h.2.2]
          exact hn1
        | true =>
          simp only [h1] at h
          cases h2 : treeCheckLoop env recur n k (i + 1) c1 with
          | none => simp [h2] at h
          | some r2 =>
            obtain ⟨b2, c2, e2⟩ := r2
            have hn2 := ih _ _ _ _ _ h2
            simp only [h2, Option.some.injEq, Prod.mk.injEq] at h
            rw [← h.2.2]
            simp [hn1, hn2]

/-- The traversal never prints "Wrong number of nodes". -/
theorem treeCheck_no_wrongCount (env : Env) :
    ∀ fuel x c b c' e, CheckerDT_treeCheck env fuel x c = some (b, c', e) →
      Diag.wrongCount ∉ e := by
  intro fuel
  induction fuel with
  | zero =>
    intro x c b c' e h
    cases x with
    | none =>
      simp only [CheckerDT_treeCheck, Option.some.injEq, Prod.mk.injEq] at h
      rw [← h.2.2]
      simp
    | some n => simp [CheckerDT_treeCheck] at h
  | succ f ih =>
    intro x c b c' e h
    cases x with
    | none =>
      simp only [CheckerDT_treeCheck, Option.some.injEq, Prod.mk.injEq] at h
      rw [← h.2.2]
      simp
    | some n =>
      simp only [CheckerDT_treeCheck] at h
      cases h1 : CheckerDT_Node_isValid env (some n) with
      | none => simp [h1] at h
      | some r1 =>
        obtain ⟨b1, e1⟩ := r1
        have hn1 := Node_isValid_no_wrongCount h1
        cases b1 with
        | false =>
          simp only [h1, Option.some.injEq, Prod.mk.injEq] at h
          rw [← h.2.2]
          exact hn1
        | true =>
          simp only [h1] at h
          cases h2 : treeCheckLoop env (CheckerDT_treeCheck env f) n
              (env.Node_getNumChildren n) 0 ((c + 1) % SIZE_MOD) with
          | none => simp [h2] at h
          | some r2 =>
            obtain ⟨b2, c2, e2⟩ := r2
            have hn2 := treeCheckLoop_no_wrongCount ih n _ _ _ _ _ _ h2
            simp only [h2, Option.some.injEq, Prod.mk.injEq] at h
            rw [← h.2.2]
            simp [hn1, hn2]

/-- C11, amended. On a tree that passes the tree-level tests, "Wrong number of
nodes" is printed exactly when the claimed count differs from the final value
of the counter of the traversal, whatever stopped the traversal: the
traversal itself never prints it, and the run prints the messages of the
traversal, then "Wrong number of nodes" when the counter differs from the
count, and returns FALSE then, the result of the traversal otherwise.  The
traversal returns, with enough fuel, when the single-node check dereferences
no NULL child.  The final counter is the number of reachable nodes when
every node passes the single-node check and every enumeration succeeds (the
run then returns TRUE exactly when the count is right), and the position `k`
of the first node that fails the single-node check when the traversal stops
there (the nodes before it pass and their enumerations succeed). -/
theorem C11_count_report (env : Env) (fuel₀ : Nat) (bIsInitialized : Bool) (oNRoot : Node_T)
    (ulCount : Nat) (hbook : BookkeepingOk env bIsInitialized oNRoot ulCount) :
    (∀ fuel res ctr err, CheckerDT_treeCheck env fuel oNRoot 0 = some (res, ctr, err) →
      Diag.wrongCount ∉ err ∧
      CheckerDT_isValid env fuel bIsInitialized oNRoot ulCount
        = (if ctr ≠ ulCount then some (false, err ++ [Diag.wrongCount])
           else some (res, err)) ∧
      ∃ r msgs, CheckerDT_isValid env fuel bIsInitialized oNRoot ulCount = some (r, msgs) ∧
        (Diag.wrongCount ∈ msgs ↔ ctr ≠ ulCount)) ∧
    (∀ l, reachable env fuel₀ oNRoot = some l →
      (∀ m ∈ l, (CheckerDT_Node_isValid env (some m)).isSome) → ∀ fuel, fuel₀ ≤ fuel →
      ∃ res ctr err, CheckerDT_treeCheck env fuel oNRoot 0 = some (res, ctr, err)) ∧
    (∀ l, reachable env fuel₀ oNRoot = some l → l.Nodup → l.length < SIZE_MOD →
      (∀ m ∈ l, NodeOk env m ∧ StatusOk env m) → ∀ fuel, fuel₀ ≤ fuel →
      CheckerDT_isValid env fuel bIsInitialized oNRoot ulCount
        = if ulCount ≠ l.toFinset.card then some (false, [Diag.wrongCount])
          else some (true, [])) ∧
    (∀ pre n post e, reachable env fuel₀ oNRoot = some (pre ++ n :: post) →
      pre.length + 1 < SIZE_MOD → (∀ m ∈ pre, NodeOk env m ∧ StatusOk env m) →
      CheckerDT_Node_isValid env (some n) = some (false, e) → ∀ fuel, fuel₀ ≤ fuel →
      CheckerDT_isValid env fuel bIsInitialized oNRoot ulCount
        = if ulCount ≠ pre.length + 1 then some (false, e ++ [Diag.wrongCount])
          else some (false, e)) := by
  refine ⟨?_, ?_, ?_, ?_⟩
  · intro fuel res ctr err h
    have hno := treeCheck_no_wrongCount env fuel oNRoot 0 res ctr err h
    have hrun : CheckerDT_isValid env fuel bIsInitialized oNRoot ulCount
        = (if ctr ≠ ulCount then some (false, err ++ [Diag.wrongCount])
           else some (res, err)) := by
      rw [isValid_of_bookkeeping hbook]
      unfold isValidTraverse
      simp only [h]
    refine ⟨hno, hrun, ?_⟩
    by_cases hc : ctr = ulCount
    · refine ⟨res, err, by rw [hrun]; simp [hc], ?_⟩
      simp [hc, hno]
    · refine ⟨false, err ++ [Diag.wrongCount], by rw [hrun]; simp [hc], ?_⟩
      simp [hc]
  · intro l hl hdef fuel hf
    have ht := treeCheck_total env fuel oNRoot l 0 (reachable_mono env hf hl) hdef
    cases h1 : CheckerDT_treeCheck env fuel oNRoot 0 with
    | none => simp [h1] at ht
    | some r =>
      obtain ⟨res, ctr, err⟩ := r
      exact ⟨res, ctr, err, rfl⟩
  · intro l hl hnd hsize hok fuel hf
    have h1 := treeCheck_complete env fuel oNRoot l 0 (reachable_mono env hf hl) hok
      SIZE_MOD_pos
    rw [Nat.zero_add, Nat.mod_eq_of_lt hsize] at h1
    rw [isValid_of_bookkeeping hbook, List.toFinset_card_of_nodup hnd]
    unfold isValidTraverse
    simp only [h1, List.nil_append]
    by_cases hc : l.length = ulCount
    · simp [hc]
    · have hc' : ¬ ulCount = l.length := fun h => hc h.symm
      simp [hc, hc']
  · intro pre n post e hl hsize hok hfail fuel hf
    have h1 := treeCheck_failfast env fuel oNRoot _ pre n post 0 e
      (reachable_mono env hf hl) rfl hok hfail
    rw [Nat.zero_add, Nat.mod_eq_of_lt hsize] at h1
    rw [isValid_of_bookkeeping hbook]
    unfold isValidTraverse
    simp only [h1]
    by_cases hc : pre.length + 1 = ulCount
    · simp [hc]
    · have hc' : ¬ ulCount = pre.length + 1 := fun h => hc h.symm
      simp [hc, hc']

/-- C11 at three trees: "/a", "/a/b", "/a/c" with the claimed count 2 prints
"Wrong number of nodes" alone; "/a" with "/a/b", "/a/c/x", "/a/d" and the
claimed count 4, its number of nodes, prints it after the message on the
third node, where the counter stopped at 3; `envShortChild`, whose traversal
stops at the failed enumeration of node 2 with the counter at 2, prints it
with the claimed count 3 and not with the claimed count 2. -/
theorem C11_count_report_witness :
    CheckerDT_isValid (tableEnv treeABC) 2 true (some 1) 2 = some (false, [Diag.wrongCount]) ∧
    CheckerDT_isValid (tableEnv treeLateFail) 2 true (some 1) 4
      = some (false, [Diag.parentChildPaths ["a"] ["a", "c", "x"], Diag.wrongCount]) ∧
    CheckerDT_isValid envShortChild 2 true (some 1) 3
      = some (false, [Diag.fewerChildren, Diag.wrongCount]) ∧
    CheckerDT_isValid envShortChild 2 true (some 1) 2 = some (false, [Diag.fewerChildren]) :=
  ⟨(C11_count_report (tableEnv treeABC) 2 true (some 1) 2 (by decide)).2.2.1 [1, 2, 3]
      (by decide) (by decide) (by decide) (by decide) 2 (Nat.le_refl 2),
   (C11_count_report (tableEnv treeLateFail) 2 true (some 1) 4 (by decide)).2.2.2 [1, 2] 3 [4]
      [Diag.parentChildPaths ["a"] ["a", "c", "x"]] (by decide) (by decide) (by decide)
      (by decide) 2 (Nat.le_refl 2),
   ((C11_count_report envShortChild 2 true (some 1) 3 (by decide)).1 2 false 2
      [Diag.fewerChildren] (by decide)).2.1,
   ((C11_count_report envShortChild 2 true (some 1) 2 (by decide)).1 2 false 2
      [Diag.fewerChildren] (by decide)).2.1⟩

end CheckerDT
